import Mathlib

/-
Verification of the LOGOS analysis pipeline.

This file embeds, as executable Lean definitions, the parts of the LOGOS
repository that its specification makes claims about:

* the response normalizers — `parseResponse` from
  `supabase/functions/analyze-paper/index.ts`, the response-parsing section of
  `analyzePaperWithCustomAI` from `services/customAiService.ts`, and
  `parseGeminiResponse` from `services/geminiClientService.ts`;
* the custom-AI URL helper `getChatCompletionsUrl` from
  `services/customAiService.ts`;
* the proxy relay (`isUrlAllowed`, the allow-list construction and the
  `POST /api/proxy/chat/completions` handler) from `server.ts`;
* the session-repository paths — the `GET /api/sessions` handler from
  `server.ts`, `fetchSessionsFromSupabase` from `services/supabase.ts`, the
  row-level-security policies on `analysis_sessions` from the schema, and the
  orchestrator fallback `handleNewSession` from `App.tsx`.

JavaScript string primitives (`indexOf`, `lastIndexOf`, `substring`, `trim`,
the specific literal-pattern `replace` calls, and `JSON.parse`) are modelled
character-exactly on `List Char` for the ASCII texts involved.
-/

set_option maxRecDepth 100000

namespace Logos

/-! ## JavaScript string primitives, on `List Char` -/

/-- The whitespace class used by `trim` and by the regex class `\s`
    (ASCII members; the model restricts itself to ASCII text). -/
def jsWs (c : Char) : Bool :=
  c = ' ' || c = '\t' || c = '\n' || c = '\r' || c = '\x0b' || c = '\x0c'

/-- ASCII decimal digit. -/
def isDigitChar (c : Char) : Bool := '0' ≤ c && c ≤ '9'

/-- Drop trailing whitespace. -/
def dropTrailWs (l : List Char) : List Char :=
  (l.reverse.dropWhile jsWs).reverse

/-- JS `String.trim()`: drop leading and trailing whitespace. -/
def trimL (l : List Char) : List Char :=
  dropTrailWs (l.dropWhile jsWs)

/-- All indices `i ≤ l.length` at which `pat` occurs in `l`, in ascending order. -/
def idxList (pat l : List Char) : List Nat :=
  (List.range (l.length + 1)).filter (fun i => pat.isPrefixOf (l.drop i))

/-- JS `String.indexOf(pat)`, as `none` instead of `-1`. -/
def firstIndexOf? (pat l : List Char) : Option Nat := (idxList pat l).head?

/-- JS `String.lastIndexOf(pat)`, as `none` instead of `-1`. -/
def lastIndexOf? (pat l : List Char) : Option Nat := (idxList pat l).getLast?

/-- Whether `pat` occurs anywhere in `l`. -/
def containsSub (pat : List Char) : List Char → Bool
  | [] => pat.isPrefixOf []
  | c :: t => pat.isPrefixOf (c :: t) || containsSub pat t

/-- JS `String.substring(a, b)`: clamps both arguments to the length and swaps
    them when `a > b`. -/
def jsSubstring (l : List Char) (a b : Nat) : List Char :=
  (l.take (max (min a l.length) (min b l.length))).drop
    (min (min a l.length) (min b l.length))

/-- Recursion skeleton for global literal replacement. The `fuel` only
    bounds recursion (one unit per emitted-or-deleted position); callers pass
    the list's length, which always suffices. -/
def removeAllSubFuel (pat : List Char) : Nat → List Char → List Char
  | _, [] => []
  | 0, l => l
  | fuel + 1, c :: t =>
    if pat.isPrefixOf (c :: t) then removeAllSubFuel pat fuel (t.drop (pat.length - 1))
    else c :: removeAllSubFuel pat fuel t

/-- JS `str.replace(/pat/g, '')` for a literal pattern: delete every
    non-overlapping occurrence, scanning left to right. -/
def removeAllSub (pat l : List Char) : List Char := removeAllSubFuel pat l.length l

/-- Case-insensitive prefix test (the regex `i` flag, ASCII letters). -/
def isPrefixCI : List Char → List Char → Bool
  | [], _ => true
  | _ :: _, [] => false
  | p :: ps, c :: cs => (p.toLower = c.toLower) && isPrefixCI ps cs

/-- Case-insensitive containment. -/
def containsSubCI (pat : List Char) : List Char → Bool
  | [] => isPrefixCI pat []
  | c :: t => isPrefixCI pat (c :: t) || containsSubCI pat t

def removeAllSubCIFuel (pat : List Char) : Nat → List Char → List Char
  | _, [] => []
  | 0, l => l
  | fuel + 1, c :: t =>
    if isPrefixCI pat (c :: t) then removeAllSubCIFuel pat fuel (t.drop (pat.length - 1))
    else c :: removeAllSubCIFuel pat fuel t

/-- JS `str.replace(/pat/gi, '')` for a literal pattern, case-insensitively. -/
def removeAllSubCI (pat l : List Char) : List Char := removeAllSubCIFuel pat l.length l

/-- After a `,`, try to match `\s*\.\.\.`; on success return the remainder. -/
def wsThenDots (l : List Char) : Option (List Char) :=
  let l1 := l.dropWhile jsWs
  if ['.', '.', '.'].isPrefixOf l1 then some (l1.drop 3) else none

def removeCommaEllipsisFuel : Nat → List Char → List Char
  | _, [] => []
  | 0, l => l
  | fuel + 1, c :: t =>
    if c = ',' then
      match wsThenDots t with
      | some rest => removeCommaEllipsisFuel fuel rest
      | none => ',' :: removeCommaEllipsisFuel fuel t
    else c :: removeCommaEllipsisFuel fuel t

/-- JS `str.replace(/,\s*\.\.\./g, '')`: delete each comma that is followed by
    optional whitespace and a literal ellipsis, together with that ellipsis. -/
def removeCommaEllipsis (l : List Char) : List Char :=
  removeCommaEllipsisFuel l.length l

/-- JS `parseInt(s, 10)`: optional sign then a maximal digit run; `none` for
    `NaN`. (The sources always pre-`trim` the argument.) -/
def parseIntJS (l : List Char) : Option Int :=
  let (sign, l1) : Int × List Char :=
    match l with
    | '-' :: t => (-1, t)
    | '+' :: t => (1, t)
    | _ => (1, l)
  let ds := l1.takeWhile isDigitChar
  if ds.isEmpty then none
  else some (sign * (ds.foldl (fun a c => 10 * a + ((c.toNat : Int) - 48)) (0 : Int)))

/-! ## `JSON.parse`

A strict JSON reader over `List Char`. Numbers are kept exactly as
`mantissa × 10 ^ exponent` (the texts at issue never exercise double
rounding), strings support the JSON escapes, and duplicate object keys keep
the later binding, as `JSON.parse` does. -/

/-- A parsed JSON value. -/
inductive Json where
  | jnull
  | jbool (b : Bool)
  | jnum (m : Int) (e : Int)
  | jstr (s : String)
  | jarr (elems : List Json)
  | jobj (members : List (String × Json))

/-- JSON's own whitespace class (strictly space, tab, newline, return). -/
def jsonWs (c : Char) : Bool := c = ' ' || c = '\t' || c = '\n' || c = '\r'

def skipJsonWs (l : List Char) : List Char := l.dropWhile jsonWs

/-- Numeric value of a digit run, most significant first. -/
def digitsVal (ds : List Char) : Nat :=
  ds.foldl (fun a c => 10 * a + (c.toNat - 48)) 0

/-- Split a maximal leading digit run. -/
def digitRun (l : List Char) : List Char × List Char :=
  (l.takeWhile isDigitChar, l.dropWhile isDigitChar)

/-- Value of a JSON escape character (without `\u`). -/
def jsonEscape (c : Char) : Option Char :=
  match c with
  | '"' => some '"'
  | '\\' => some '\\'
  | '/' => some '/'
  | 'b' => some '\x08'
  | 'f' => some '\x0c'
  | 'n' => some '\n'
  | 'r' => some '\r'
  | 't' => some '\t'
  | _ => none

def hexDigitVal (c : Char) : Option Nat :=
  if isDigitChar c then some (c.toNat - 48)
  else if 'a' ≤ c && c ≤ 'f' then some (c.toNat - 87)
  else if 'A' ≤ c && c ≤ 'F' then some (c.toNat - 55)
  else none

/-- Read a JSON string body (after the opening quote). Code points from `\u`
    escapes are taken as scalar values directly (surrogate pairing is not
    modelled; the texts at issue stay in ASCII). -/
def readJsonStr (acc : List Char) : List Char → Option (String × List Char)
  | [] => none
  | '"' :: rest => some (String.mk acc.reverse, rest)
  | '\\' :: 'u' :: a :: b :: c :: d :: rest =>
    match hexDigitVal a, hexDigitVal b, hexDigitVal c, hexDigitVal d with
    | some va, some vb, some vc, some vd =>
      readJsonStr (Char.ofNat (((va * 16 + vb) * 16 + vc) * 16 + vd) :: acc) rest
    | _, _, _, _ => none
  | '\\' :: e :: rest =>
    match jsonEscape e with
    | some c => readJsonStr (c :: acc) rest
    | none => none
  | c :: rest =>
    if c.toNat < 32 then none else readJsonStr (c :: acc) rest

/-- The sign of an exponent and the remainder after it. -/
def readExpSign (t : List Char) : Int × List Char :=
  if t.head? = some '-' then (-1, t.drop 1)
  else if t.head? = some '+' then (1, t.drop 1)
  else (1, t)

/-- Optional exponent part of a number; `mant`/`fracLen` come from the parts
    already read. -/
def readNumExp (mant : Nat) (fracLen : Nat) (l : List Char) :
    Option (Int × Int × List Char) :=
  match l with
  | e :: t =>
    if e = 'e' ∨ e = 'E' then
      let (esign, t1) := readExpSign t
      let (eds, t2) := digitRun t1
      if eds.isEmpty then none
      else some ((mant : Int), esign * (digitsVal eds : Int) - (fracLen : Int), t2)
    else some ((mant : Int), -(fracLen : Int), l)
  | [] => some ((mant : Int), -(fracLen : Int), [])

/-- Optional fraction then exponent after the integer part `ip`. -/
def readNumTail (ip : Nat) (l : List Char) : Option (Int × Int × List Char) :=
  if l.head? = some '.' then
    let (fds, r) := digitRun (l.drop 1)
    if fds.isEmpty then none
    else readNumExp (ip * 10 ^ fds.length + digitsVal fds) fds.length r
  else readNumExp ip 0 l

/-- The integer part and what follows; strict (no leading zeros). -/
def readJsonNumCore : List Char → Option (Int × Int × List Char)
  | [] => none
  | c :: t =>
    if c = '0' then
      if isDigitChar (t.headD ' ') then none else readNumTail 0 t
    else if isDigitChar c then
      readNumTail (digitsVal ((c :: t).takeWhile isDigitChar)) ((c :: t).dropWhile isDigitChar)
    else none

/-- Read a strict JSON number (no leading zeros, no bare `.`). -/
def readJsonNum (l : List Char) : Option (Json × List Char) :=
  if l.head? = some '-' then
    (readJsonNumCore (l.drop 1)).map (fun (m, e, r) => (Json.jnum (-m) e, r))
  else
    (readJsonNumCore l).map (fun (m, e, r) => (Json.jnum m e, r))

mutual

/-- Read one JSON value (no leading whitespace), dispatching on the first
    character. -/
def readJsonVal : Nat → List Char → Option (Json × List Char)
  | 0, _ => none
  | fuel + 1, l =>
    match l with
    | [] => none
    | c :: t =>
      if c = 'n' then
        if ['u', 'l', 'l'].isPrefixOf t then some (Json.jnull, t.drop 3) else none
      else if c = 't' then
        if ['r', 'u', 'e'].isPrefixOf t then some (Json.jbool true, t.drop 3) else none
      else if c = 'f' then
        if ['a', 'l', 's', 'e'].isPrefixOf t then some (Json.jbool false, t.drop 4)
        else none
      else if c = '"' then
        (readJsonStr [] t).map (fun (s, r2) => (Json.jstr s, r2))
      else if c = '[' then
        if (skipJsonWs t).head? = some ']' then some (Json.jarr [], (skipJsonWs t).drop 1)
        else (readJsonElems fuel (skipJsonWs t)).map (fun (vs, r2) => (Json.jarr vs, r2))
      else if c = '\x7b' then
        if (skipJsonWs t).head? = some '\x7d' then
          some (Json.jobj [], (skipJsonWs t).drop 1)
        else (readJsonMembers fuel (skipJsonWs t)).map (fun (ms, r2) => (Json.jobj ms, r2))
      else readJsonNum (c :: t)

/-- Read the elements of a non-empty array body up to and through `]`. -/
def readJsonElems : Nat → List Char → Option (List Json × List Char)
  | 0, _ => none
  | fuel + 1, l =>
    match readJsonVal fuel l with
    | none => none
    | some (v, r) =>
      match skipJsonWs r with
      | ']' :: r2 => some ([v], r2)
      | ',' :: r2 =>
        (readJsonElems fuel (skipJsonWs r2)).map (fun (vs, r3) => (v :: vs, r3))
      | _ => none

/-- Read the members of a non-empty object body up to and through the brace. -/
def readJsonMembers : Nat → List Char → Option (List (String × Json) × List Char)
  | 0, _ => none
  | fuel + 1, l =>
    match l with
    | '"' :: r =>
      match readJsonStr [] r with
      | none => none
      | some (k, r1) =>
        match skipJsonWs r1 with
        | ':' :: r2 =>
          match readJsonVal fuel (skipJsonWs r2) with
          | none => none
          | some (v, r3) =>
            match skipJsonWs r3 with
            | '\x7d' :: r4 => some ([(k, v)], r4)
            | ',' :: r4 =>
              (readJsonMembers fuel (skipJsonWs r4)).map
                (fun (ms, r5) => ((k, v) :: ms, r5))
            | _ => none
        | _ => none
    | _ => none

end

/-- `JSON.parse`: a whole text is one value surrounded by whitespace. -/
def parseJsonText (l : List Char) : Option Json :=
  match readJsonVal (l.length + 1) (skipJsonWs l) with
  | some (v, rest) => if (skipJsonWs rest).isEmpty then some v else none
  | none => none

/-- JS truthiness of a parsed JSON value. -/
def truthy : Json → Bool
  | Json.jnull => false
  | Json.jbool b => b
  | Json.jnum m _ => m ≠ 0
  | Json.jstr s => s ≠ ""
  | Json.jarr _ => true
  | Json.jobj _ => true

/-- JS property read on a parse result: objects look keys up (later duplicate
    keys win, as in `JSON.parse`), other non-null values yield `undefined`. -/
def getField (j : Json) (k : String) : Option Json :=
  match j with
  | Json.jobj kvs => ((kvs.filter (fun kv => kv.1 = k)).map (fun kv => kv.2)).getLast?
  | _ => none

/-! ## The edge-function normalizer (`parseResponse`, analyze-paper/index.ts)
and the custom-AI response normalizer (`analyzePaperWithCustomAI`,
customAiService.ts). Both share the same field-defaulting epilogue. -/

/-- `parsed.x || dflt`: the field when present and truthy, else the default. -/
def jsOr (v : Option Json) (dflt : Json) : Json :=
  match v with
  | some x => if truthy x then x else dflt
  | none => dflt

/-- The result record assembled after a successful `JSON.parse`. The code is
    untyped, so most fields can carry any JSON value; `experimentCode` is a
    string whenever the record is built at all (a non-string would have made
    `.replace` throw first). -/
structure EdgeResult where
  summary : Json
  reasoning : Json
  assumptions : List Json
  experimentCode : String
  simulationData : List Json
  reproducibilityScore : Json
  citationIntegrity : Json

def finalOpenL : List Char := "<FINAL_JSON>".toList
def finalCloseL : List Char := "</FINAL_JSON>".toList
def fenceJsonL : List Char := "```json".toList
def fenceL : List Char := "```".toList
def fencePythonL : List Char := "```python".toList
def dotsL : List Char := "...".toList

def parseFailMsg : String :=
  "Failed to parse analysis JSON. The model generated invalid JSON."

def replaceTypeErrMsg : String := "TypeError: replace is not a function"

def nullFieldTypeErrMsg : String := "TypeError: cannot read properties of null"

/-- Lines 93–115 of index.ts: field defaulting applied to the value returned
    by `JSON.parse`. Property access on `null` throws, and `.replace` on a
    truthy non-string `simulation_python_code` throws; both happen outside the
    surrounding `try`, so they surface as-is. -/
def normalizeParsed (parsed : Json) : Except String EdgeResult :=
  match parsed with
  | Json.jnull => Except.error nullFieldTypeErrMsg
  | _ =>
    let summary := jsOr (getField parsed "methodology_summary")
      (Json.jstr "Could not extract summary.")
    let reasoning := jsOr (getField parsed "deep_reasoning")
      (Json.jstr "Could not extract reasoning.")
    let reproducibilityScore : Json :=
      match getField parsed "reproducibility_score" with
      | some (Json.jnum m e) => Json.jnum m e
      | _ => Json.jnum 75 0
    let citationIntegrity := jsOr (getField parsed "citation_integrity")
      (Json.jstr "Unknown")
    let assumptions : List Json :=
      match getField parsed "critical_assumptions" with
      | some (Json.jarr xs) => xs.take 3
      | _ => []
    match jsOr (getField parsed "simulation_python_code")
        (Json.jstr "# Could not generate code.") with
    | Json.jstr code =>
      let experimentCode :=
        String.mk (removeAllSub fenceL (removeAllSub fencePythonL code.toList))
      let simulationData : List Json :=
        match getField parsed "simulation_data" with
        | some (Json.jarr xs) => xs
        | _ => []
      Except.ok ⟨summary, reasoning, assumptions, experimentCode,
        simulationData, reproducibilityScore, citationIntegrity⟩
    | _ => Except.error replaceTypeErrMsg

/-- The ellipsis sanitization of index.ts:
    `.replace(/,\s*\.\.\./g, '').replace(/\.\.\./g, '')`. -/
def edgeSanitize (l : List Char) : List Char :=
  removeAllSub dotsL (removeCommaEllipsis l)

/-- The tag-branch body of `parseResponse`: trim, strip fence markers, drop
    ellipsis placeholders, `JSON.parse`, then default the fields. A parse
    failure is caught and rethrown as `parseFailMsg`. -/
def parsePayload (span : List Char) : Except String EdgeResult :=
  let j1 := trimL span
  let j2 := trimL (removeAllSub fenceL (removeAllSubCI fenceJsonL j1))
  let j3 := edgeSanitize j2
  match parseJsonText j3 with
  | some parsed => normalizeParsed parsed
  | none => Except.error parseFailMsg

/-- The fallback branch of `parseResponse`: the regex `/\{[\s\S]*\}/g`
    (first `{` through the last `}`), ellipsis removal, `JSON.parse`. The
    "could not find" throw lands in the same `catch`, so every failure here
    is `parseFailMsg`. -/
def braceFallback (raw : List Char) : Except String EdgeResult :=
  match firstIndexOf? ['\x7b'] raw, lastIndexOf? ['\x7d'] raw with
  | some i, some j =>
    if i < j then
      let lastJson := (raw.take (j + 1)).drop i
      match parseJsonText (edgeSanitize lastJson) with
      | some parsed => normalizeParsed parsed
      | none => Except.error parseFailMsg
    else Except.error parseFailMsg
  | _, _ => Except.error parseFailMsg

/-- Whether the text has a first `\x7b` strictly before its last `\x7d` — the
    condition under which the fallback brace regex of `parseResponse` finds a
    span at all. -/
def hasBracePair (l : List Char) : Bool :=
  match firstIndexOf? ['\x7b'] l, lastIndexOf? ['\x7d'] l with
  | some i, some j => decide (i < j)
  | _, _ => false

/-- `parseResponse` from supabase/functions/analyze-paper/index.ts: extract
    the span between the **last** `<FINAL_JSON>` and the **last**
    `</FINAL_JSON>` when both exist in that order, else fall back to the
    brace scan. -/
def parseResponse (rawText : String) : Except String EdgeResult :=
  let raw := rawText.toList
  match lastIndexOf? finalOpenL raw, lastIndexOf? finalCloseL raw with
  | some si, some ei =>
    if si < ei then parsePayload (jsSubstring raw (si + finalOpenL.length) ei)
    else braceFallback raw
  | _, _ => braceFallback raw

/-! The custom-AI client normalizer. Its fenced-block fallback regex is
`/```(?:json)?\s*(\{[\s\S]*?\})\s*```/`. -/

/-- The lazy group `(\{[\s\S]*?\})\s*` + closing fence: scan for the first `}`
    that is followed by optional whitespace and a fence. -/
def lazyBraceBody (acc : List Char) : List Char → Option (List Char)
  | [] => none
  | c :: t =>
    if c = '\x7d' && fenceL.isPrefixOf (t.dropWhile jsWs) then
      some (acc.reverse ++ ['\x7d'])
    else lazyBraceBody (c :: acc) t

/-- After a fence (and the optional `json` word): `\s*` then the lazy braced
    group. -/
def fenceTail (r : List Char) : Option (List Char) :=
  match r.dropWhile jsWs with
  | '\x7b' :: t => (lazyBraceBody ['\x7b'] t)
  | _ => none

/-- A whole-regex attempt anchored at the current position. -/
def tryFenceAt (l : List Char) : Option (List Char) :=
  if fenceL.isPrefixOf l then
    let r := l.drop 3
    if "json".toList.isPrefixOf r then
      match fenceTail (r.drop 4) with
      | some cap => some cap
      | none => fenceTail r
    else fenceTail r
  else none

/-- Leftmost match of the fenced-block regex; yields the captured group. -/
def fenceCapture : List Char → Option (List Char)
  | [] => none
  | c :: t =>
    match tryFenceAt (c :: t) with
    | some cap => some cap
    | none => fenceCapture t

def customAiFailMsg : String :=
  "Failed to analyze with Custom AI. Please check your settings."

/-- The response-parsing section of `analyzePaperWithCustomAI`
    (customAiService.ts lines 101–155): tags are located with `indexOf`
    (**first** occurrences, no order check), no ellipsis sanitization is
    performed, and the surrounding catch-all rethrows every failure as
    `customAiFailMsg`. -/
def customAiParseResponse (text : String) : Except String EdgeResult :=
  let l := text.toList
  let core : Except String EdgeResult :=
    match firstIndexOf? finalOpenL l, firstIndexOf? finalCloseL l with
    | some si, some ei =>
      let jsonString :=
        trimL (removeAllSub fenceL (removeAllSubCI fenceJsonL
          (trimL (jsSubstring l (si + finalOpenL.length) ei))))
      match parseJsonText jsonString with
      | some parsed => normalizeParsed parsed
      | none => Except.error parseFailMsg
    | _, _ =>
      match fenceCapture l with
      | some cap =>
        match parseJsonText cap with
        | some parsed => normalizeParsed parsed
        | none => Except.error parseFailMsg
      | none => Except.error parseFailMsg
  match core with
  | Except.ok r => Except.ok r
  | Except.error _ => Except.error customAiFailMsg

/-! ## The per-field-tag normalizer (`parseGeminiResponse`,
geminiClientService.ts) -/

/-- Result record of `parseGeminiResponse` (every field is typed by how the
    code actually builds it; `simulationData` is whatever `JSON.parse`
    returned for the tag body, `jarr []` when the tag is absent). -/
structure GemResult where
  summary : String
  reasoning : String
  assumptions : List String
  experimentCode : String
  simulationData : Json
  reproducibilityScore : Int
  citationIntegrity : String

def thinkOpenL : List Char := "<think>".toList
def thinkCloseL : List Char := "</think>".toList

/-- Remainder after the first case-insensitive `</think>`. -/
def afterThinkClose : List Char → Option (List Char)
  | [] => none
  | c :: t =>
    if isPrefixCI thinkCloseL (c :: t) then some ((c :: t).drop thinkCloseL.length)
    else afterThinkClose t

/-- `text.replace(/<think>[\s\S]*?<\/think>/gi, '')`: drop every lazy
    open-to-close think block, case-insensitively. -/
def removeThinkBlocksFuel : Nat → List Char → List Char
  | _, [] => []
  | 0, l => l
  | fuel + 1, c :: t =>
    if isPrefixCI thinkOpenL (c :: t) then
      match afterThinkClose ((c :: t).drop thinkOpenL.length) with
      | some rest => removeThinkBlocksFuel fuel rest
      | none => c :: removeThinkBlocksFuel fuel t
    else c :: removeThinkBlocksFuel fuel t

def removeThinkBlocks (l : List Char) : List Char :=
  removeThinkBlocksFuel l.length l

/-- A regex `/<open>([\s\S]*?)<\/close>/` capture: text between the first
    open tag and the first close tag after it. -/
def firstSpan (openT closeT l : List Char) : Option (List Char) :=
  match firstIndexOf? openT l with
  | none => none
  | some i =>
    let after := l.drop (i + openT.length)
    match firstIndexOf? closeT after with
    | none => none
    | some j => some (after.take j)

/-- `line.replace(/^-\s*/, '')`. -/
def stripDashPre (l : List Char) : List Char :=
  match l with
  | '-' :: t => t.dropWhile jsWs
  | _ => l

/-- No per-field tag (and no think block) occurs anywhere in the text: none
    of the patterns `parseGeminiResponse` looks for can match. -/
def gemTagFree (l : List Char) : Bool :=
  !containsSubCI thinkOpenL l
  && !containsSub "<summary>".toList l
  && !containsSub "<reasoning>".toList l
  && !containsSub "<assumptions>".toList l
  && !containsSub "<code>".toList l
  && !containsSub "<reproducibility>".toList l
  && !containsSub "<integrity>".toList l
  && !containsSub "<simulation_data>".toList l

def gemParseFailMsg : String :=
  "Failed to parse analysis JSON. The model may have returned improperly formatted data."

/-- `parseGeminiResponse` from geminiClientService.ts: strip think blocks,
    capture each per-field tag pair, default missing fields, and parse the
    `simulation_data` body (throwing only when that body is present but does
    not parse). -/
def parseGeminiResponse (rawText : String) : Except String GemResult :=
  let text := removeThinkBlocks rawText.toList
  let summary :=
    match firstSpan "<summary>".toList "</summary>".toList text with
    | some m => String.mk (trimL m)
    | none => "Could not extract summary."
  let reasoning :=
    match firstSpan "<reasoning>".toList "</reasoning>".toList text with
    | some m => String.mk (trimL m)
    | none => "Could not extract reasoning."
  let reproducibilityScore : Int :=
    match firstSpan "<reproducibility>".toList "</reproducibility>".toList text with
    | some m =>
      match parseIntJS (trimL m) with
      | some n => if n = 0 then 75 else n
      | none => 75
    | none => 75
  let citationIntegrity :=
    match firstSpan "<integrity>".toList "</integrity>".toList text with
    | some m => String.mk (trimL m)
    | none => "Unknown"
  let assumptionsRaw : List Char :=
    match firstSpan "<assumptions>".toList "</assumptions>".toList text with
    | some m => trimL m
    | none => []
  let assumptions :=
    (((assumptionsRaw.splitOn '\n').map (fun line => trimL (stripDashPre line))).filter
      (fun line => !line.isEmpty)).take 3 |>.map String.mk
  let experimentCode :=
    match firstSpan "<code>".toList "</code>".toList text with
    | some m => String.mk (removeAllSub fenceL (removeAllSub fencePythonL (trimL m)))
    | none => String.mk (removeAllSub fenceL (removeAllSub fencePythonL
        "# Could not generate code.".toList))
  match firstSpan "<simulation_data>".toList "</simulation_data>".toList text with
  | none =>
    Except.ok ⟨summary, reasoning, assumptions, experimentCode, Json.jarr [],
      reproducibilityScore, citationIntegrity⟩
  | some m =>
    let s0 := trimL m
    let s1 := trimL (removeAllSub fenceL (removeAllSubCI fenceJsonL s0))
    -- startIdx = Math.max(0, jsonStr.search(/[[{]/)) — the -1 case clamps to 0
    let startIdx : Nat :=
      match s1.findIdx? (fun c => c = '[' ∨ c = '\x7b') with
      | some i => i
      | none => 0
    -- endIdx = Math.max(lastIndexOf ']', lastIndexOf '}'); -1 when both absent
    let jsonStr : List Char :=
      match lastIndexOf? [']'] s1, lastIndexOf? ['\x7d'] s1 with
      | some a, some b =>
        if max a b ≥ startIdx then jsSubstring s1 startIdx (max a b + 1) else s1
      | some a, none => if a ≥ startIdx then jsSubstring s1 startIdx (a + 1) else s1
      | none, some b => if b ≥ startIdx then jsSubstring s1 startIdx (b + 1) else s1
      | none, none => s1
    match parseJsonText jsonStr with
    | some v =>
      Except.ok ⟨summary, reasoning, assumptions, experimentCode, v,
        reproducibilityScore, citationIntegrity⟩
    | none => Except.error gemParseFailMsg

/-! ## `getChatCompletionsUrl` (customAiService.ts) -/

def ccSuffixL : List Char := "/chat/completions".toList

/-- `baseUrl.replace(/\/$/, '')`: drop one trailing slash. -/
def stripTrailSlash (l : List Char) : List Char :=
  if l.getLast? = some '/' then l.dropLast else l

/-- The regex test `/\/chat\/completions$/i`. -/
def endsWithCI (l sfx : List Char) : Bool :=
  (sfx.map Char.toLower).isSuffixOf (l.map Char.toLower)

/-- `getChatCompletionsUrl` from customAiService.ts. -/
def getChatCompletionsUrl (baseUrl : String) : String :=
  let base := trimL (stripTrailSlash baseUrl.toList)
  if base.isEmpty then ""
  else if endsWithCI base ccSuffixL then String.mk base
  else String.mk (base ++ ccSuffixL)

/-! ## The proxy relay (server.ts): allow-list, `isUrlAllowed`, handler -/

/-- Origin components extracted by the platform URL constructor. Modelled
    (the constructor is a platform builtin, not repository code): a scheme is
    letters/digits/`+`/`-`/`.` ending at `:`; `//` introduces an authority
    read up to `/`, `?` or `#`, of which anything through the last `@` is
    userinfo; a URL without `//` has an empty host. An absent scheme or an
    empty authority after `//` is a constructor failure. -/
structure UrlParts where
  protocol : String
  host : String

def isSchemeChar (c : Char) : Bool :=
  c.isAlpha || c.isDigit || c = '+' || c = '-' || c = '.'

def parseUrl (s : String) : Option UrlParts :=
  match s.toList with
  | [] => none
  | c :: t =>
    if !c.isAlpha then none
    else
      let schemeRest := t.takeWhile isSchemeChar
      let afterScheme := t.dropWhile isSchemeChar
      match afterScheme with
      | ':' :: r =>
        let scheme := String.mk (c :: schemeRest ++ [':'])
        match r with
        | '/' :: '/' :: a =>
          let auth := a.takeWhile (fun x => !(x = '/' || x = '?' || x = '#'))
          let host :=
            match lastIndexOf? ['@'] auth with
            | some i => auth.drop (i + 1)
            | none => auth
          if host.isEmpty then none else some ⟨scheme, String.mk host⟩
        | _ => some ⟨scheme, ""⟩
      | _ => none

/-- The `ALLOWED_CUSTOM_AI_BASE_URLS` environment parsing in server.ts:
    split on commas, trim and lowercase each entry, drop empties. -/
def parseAllowList (env : String) : List String :=
  (((env.toList.splitOn ',').map (fun u => String.mk ((trimL u).map Char.toLower))).filter
    (fun u => u ≠ ""))

/-- `isUrlAllowed` from server.ts. -/
def isUrlAllowed (allowList : List String) (url : String) : Bool :=
  if url = "" || allowList.isEmpty then false
  else
    match parseUrl url with
    | none => false
    | some u =>
      let origin := (u.protocol.toList ++ "//".toList ++ u.host.toList).map Char.toLower
      allowList.any (fun allowed =>
        origin = allowed.toList || allowed.toList.isPrefixOf origin)

/-- The request body of `POST /api/proxy/chat/completions`. The three string
    fields are modelled at their expected type (absent or empty means falsy);
    `messages` may be any JSON value. -/
structure ProxyBody where
  targetUrl : Option String
  apiKey : Option String
  model : Option String
  messages : Option Json

def presentStr : Option String → Bool
  | some s => s ≠ ""
  | none => false

def presentJson : Option Json → Bool
  | some v => truthy v
  | none => false

def proxyFieldsPresent (b : ProxyBody) : Bool :=
  presentStr b.targetUrl && presentStr b.apiKey && presentStr b.model &&
    presentJson b.messages

/-- What the handler decides before any network activity. -/
inductive ProxyDecision where
  | badRequest
  | forbidden
  | forwardTo (url : String)

def proxyDecide (allowList : List String) (b : ProxyBody) : ProxyDecision :=
  if !proxyFieldsPresent b then ProxyDecision.badRequest
  else if !isUrlAllowed allowList (b.targetUrl.getD "") then ProxyDecision.forbidden
  else ProxyDecision.forwardTo ((b.targetUrl.getD "") ++ "/chat/completions")

/-- Outcome of the forwarded `fetch`. -/
inductive UpstreamOutcome where
  | httpResp (status : Nat) (statusText : String) (bodyText : String)
  | networkFailure

/-- Body of the relay's reply. -/
inductive RelayBody where
  | jsonData (data : Json)
  | errorMsg (error : String) (details : Option String)

structure RelayResponse where
  status : Nat
  body : RelayBody

def proxyMissingMsg : String := "Missing required parameters"

def proxyForbiddenMsg : String :=
  "Custom AI base URL is not allowed. Configure ALLOWED_CUSTOM_AI_BASE_URLS on the server."

/-- The post-`fetch` part of the handler: `response.ok` forwards the decoded
    body with status 200; otherwise the handler mirrors
    `response.status` and attaches the upstream body as `details`; a thrown
    error (network failure or an undecodable 2xx body) yields 500. -/
def relayUpstream (u : UpstreamOutcome) : RelayResponse :=
  match u with
  | UpstreamOutcome.networkFailure => ⟨500, RelayBody.errorMsg "Internal Proxy Error" none⟩
  | UpstreamOutcome.httpResp st stx bodyText =>
    if 200 ≤ st ∧ st ≤ 299 then
      match parseJsonText bodyText.toList with
      | some data => ⟨200, RelayBody.jsonData data⟩
      | none => ⟨500, RelayBody.errorMsg "Internal Proxy Error" none⟩
    else ⟨st, RelayBody.errorMsg ("Upstream API Error: " ++ stx) (some bodyText)⟩

/-- The whole `POST /api/proxy/chat/completions` handler, with the upstream
    outcome supplied as a parameter (it is only consulted on forward). -/
def proxyChatCompletions (allowList : List String) (b : ProxyBody)
    (u : UpstreamOutcome) : RelayResponse :=
  match proxyDecide allowList b with
  | ProxyDecision.badRequest => ⟨400, RelayBody.errorMsg proxyMissingMsg none⟩
  | ProxyDecision.forbidden => ⟨403, RelayBody.errorMsg proxyForbiddenMsg none⟩
  | ProxyDecision.forwardTo _ => relayUpstream u

/-! ## Session repository: rows, row-level security, list handlers -/

/-- A row of `public.analysis_sessions`. -/
structure SessionRow where
  id : String
  user_id : String
  filename : String
  timestamp : Int
  summary : String
  assumptions : List String
  reasoning : String
  experiment_code : String
  simulation_data : Option Json
  raw_text : Option String
  reproducibility_score : Option Int
  citation_integrity : Option String

/-- The SELECT policy `"Users can view own sessions"`:
    `USING (auth.uid() = user_id)`; `auth.uid()` is null for an
    unauthenticated caller, and a null comparison never passes. -/
def sessionsSelectPolicy (authUid : Option String) (row : SessionRow) : Bool :=
  match authUid with
  | some uid => uid = row.user_id
  | none => false

/-- Row-level security: a SELECT sees exactly the rows its policy admits. -/
def rlsVisibleSessions (authUid : Option String) (table : List SessionRow) :
    List SessionRow :=
  table.filter (sessionsSelectPolicy authUid)

/-- `ORDER BY timestamp DESC` (insertion sort; ties in any order, as in SQL). -/
def insertTsDesc (x : SessionRow) : List SessionRow → List SessionRow
  | [] => [x]
  | y :: t => if y.timestamp ≤ x.timestamp then x :: y :: t else y :: insertTsDesc x t

def sortTsDesc : List SessionRow → List SessionRow
  | [] => []
  | x :: t => insertTsDesc x (sortTsDesc t)

/-- The rows produced by `GET /api/sessions` (server.ts): the service-role
    client bypasses row security, and the handler itself filters
    `eq('user_id', authUser.id)` and orders by timestamp descending. -/
def serverSessionRows (authUserId : String) (table : List SessionRow) :
    List SessionRow :=
  sortTsDesc (table.filter (fun r => r.user_id = authUserId))

/-- The rows produced by `fetchSessionsFromSupabase` (services/supabase.ts):
    the client issues no owner filter of its own — row-level security is the
    only thing scoping the result — then orders by timestamp descending. -/
def clientSessionRows (authUid : Option String) (table : List SessionRow) :
    List SessionRow :=
  sortTsDesc (rlsVisibleSessions authUid table)

/-! ## The orchestrator fallback (`handleNewSession`, App.tsx) -/

/-- An `AnalysisSession` as in types.ts. -/
structure AnalysisSessionV where
  id : String
  filename : String
  timestamp : Int
  summary : String
  assumptions : List String
  reasoning : String
  experimentCode : String
  simulationData : Option Json
  rawText : Option String
  reproducibilityScore : Option Int
  citationIntegrity : Option String

/-- Side effects the handler performs besides updating React state.
    `storeLocalSessions` stands for
    `localStorage.setItem('logos_sessions', JSON.stringify(next))`;
    `notifyUser` stands for any `toast` call. -/
inductive ClientEffect where
  | storeLocalSessions (sessions : List AnalysisSessionV)
  | notifyUser (message : String)

structure NewSessionOutcome where
  sessions : List AnalysisSessionV
  currentSessionId : Option String
  effects : List ClientEffect

/-- `user?.id` truthiness. -/
def presentUserId : Option String → Bool
  | some s => s ≠ ""
  | none => false

/-- `handleNewSession` from App.tsx. `remoteSaved` is the value of
    `await createSessionInSupabase(session)` (`none` both when the remote
    create failed and when it was never attempted). -/
def handleNewSession (supabaseConfigured : Bool) (userId : Option String)
    (remoteSaved : Option AnalysisSessionV) (session : AnalysisSessionV)
    (prev : List AnalysisSessionV) : NewSessionOutcome :=
  match (if supabaseConfigured && presentUserId userId then remoteSaved else none) with
  | some saved => ⟨saved :: prev, some saved.id, []⟩
  | none =>
    ⟨session :: prev, some session.id,
      [ClientEffect.storeLocalSessions (session :: prev)]⟩

/-- The concrete session used by the C6 theorems. -/
def c6demo : AnalysisSessionV :=
  ⟨"local-1", "paper.pdf", 5, "a summary", [], "reasoning", "code", none, none, none, none⟩

/-- Comma-space separated concatenation, as inside a rendered JSON array of
    numbers. -/
def sepComma : List (List Char) → List Char
  | [] => []
  | [ds] => ds
  | ds :: rest => ds ++ ',' :: ' ' :: sepComma rest

/-- A strict JSON unsigned-integer token: non-empty, all digits, no leading
    zero (except the single digit `0`). -/
def jsonNatToken (ds : List Char) : Bool :=
  !ds.isEmpty && ds.all isDigitChar && (ds.head? ≠ some '0' || ds = ['0'])

/-! # Lemmas -/

/-! ## Prefix, containment and index search -/

theorem isPrefixOf_append_self (p t : List Char) : p.isPrefixOf (p ++ t) = true := by
  induction p with
  | nil => simp [List.isPrefixOf]
  | cons a as ih => simp [List.isPrefixOf, ih]

theorem length_le_of_isPrefixOf {p l : List Char} (h : p.isPrefixOf l = true) :
    p.length ≤ l.length := by
  induction p generalizing l with
  | nil => simp
  | cons a as ih =>
    cases l with
    | nil => simp [List.isPrefixOf] at h
    | cons b bs =>
      simp only [List.isPrefixOf, Bool.and_eq_true] at h
      have := ih h.2
      simp only [List.length_cons]
      omega

theorem eq_append_drop_of_isPrefixOf {p l : List Char} (h : p.isPrefixOf l = true) :
    l = p ++ l.drop p.length := by
  induction p generalizing l with
  | nil => simp
  | cons a as ih =>
    cases l with
    | nil => simp [List.isPrefixOf] at h
    | cons b bs =>
      simp only [List.isPrefixOf, Bool.and_eq_true, beq_iff_eq] at h
      obtain ⟨rfl, h2⟩ := h
      simpa using ih h2

theorem not_occurs_of_containsSub_false {pat l : List Char} (hne : pat ≠ [])
    (h : containsSub pat l = false) : ∀ i, pat.isPrefixOf (l.drop i) = false := by
  induction l with
  | nil =>
    intro i
    cases pat with
    | nil => exact absurd rfl hne
    | cons a as => simp [List.isPrefixOf]
  | cons c t ih =>
    intro i
    simp only [containsSub, Bool.or_eq_false_iff] at h
    cases i with
    | zero => exact h.1
    | succ j => exact ih h.2 j

theorem getLast?_filter_range {P : Nat → Bool} {m : Nat} (h1 : P m = true)
    (h2 : ∀ i, m < i → P i = false) :
    ∀ n, m < n → ((List.range n).filter P).getLast? = some m := by
  intro n
  induction n with
  | zero => omega
  | succ k ih =>
    intro hmk
    rw [List.range_succ, List.filter_append]
    rcases Nat.lt_or_ge m k with hk | hk
    · have hPk : P k = false := h2 k hk
      simpa [List.filter_cons, hPk] using ih hk
    · have hmk2 : m = k := by omega
      subst hmk2
      simp [List.filter_cons, h1, List.getLast?_concat]

theorem lastIndexOf?_eq_some {pat l : List Char} {m : Nat}
    (hm : pat.isPrefixOf (l.drop m) = true)
    (hmax : ∀ i, m < i → pat.isPrefixOf (l.drop i) = false)
    (hlen : m ≤ l.length) :
    lastIndexOf? pat l = some m := by
  unfold lastIndexOf? idxList
  exact getLast?_filter_range hm hmax (l.length + 1) (by omega)

theorem idxList_eq_nil {pat l : List Char} (h : ∀ i, pat.isPrefixOf (l.drop i) = false) :
    idxList pat l = [] := by
  unfold idxList
  rw [List.filter_eq_nil_iff]
  intro i _
  simp [h i]

theorem lastIndexOf?_eq_none {pat l : List Char} (hne : pat ≠ [])
    (h : containsSub pat l = false) : lastIndexOf? pat l = none := by
  unfold lastIndexOf?
  rw [idxList_eq_nil (not_occurs_of_containsSub_false hne h)]
  rfl

theorem firstIndexOf?_eq_none {pat l : List Char} (hne : pat ≠ [])
    (h : containsSub pat l = false) : firstIndexOf? pat l = none := by
  unfold firstIndexOf?
  rw [idxList_eq_nil (not_occurs_of_containsSub_false hne h)]
  rfl

/-! ## Sorting by timestamp -/

theorem insertTsDesc_perm (x : SessionRow) (l : List SessionRow) :
    (insertTsDesc x l).Perm (x :: l) := by
  induction l with
  | nil => exact List.Perm.refl _
  | cons y t ih =>
    simp only [insertTsDesc]
    split
    · exact List.Perm.refl _
    · exact (List.Perm.cons y ih).trans (List.Perm.swap x y t)

theorem sortTsDesc_perm (l : List SessionRow) : (sortTsDesc l).Perm l := by
  induction l with
  | nil => exact List.Perm.refl _
  | cons x t ih => exact (insertTsDesc_perm x (sortTsDesc t)).trans (List.Perm.cons x ih)

theorem mem_insertTsDesc {z x : SessionRow} {l : List SessionRow} :
    z ∈ insertTsDesc x l ↔ z = x ∨ z ∈ l := by
  rw [(insertTsDesc_perm x l).mem_iff, List.mem_cons]

theorem pairwise_insertTsDesc {x : SessionRow} {l : List SessionRow}
    (h : List.Pairwise (fun a b => b.timestamp ≤ a.timestamp) l) :
    List.Pairwise (fun a b => b.timestamp ≤ a.timestamp) (insertTsDesc x l) := by
  induction l with
  | nil => simp [insertTsDesc]
  | cons y t ih =>
    rw [List.pairwise_cons] at h
    simp only [insertTsDesc]
    split
    · rename_i hyx
      rw [List.pairwise_cons]
      refine ⟨?_, List.pairwise_cons.mpr h⟩
      intro z hz
      rcases List.mem_cons.mp hz with rfl | hz
      · exact hyx
      · exact le_trans (h.1 z hz) hyx
    · rename_i hyx
      rw [List.pairwise_cons]
      refine ⟨?_, ih h.2⟩
      intro z hz
      rcases mem_insertTsDesc.mp hz with rfl | hz
      · omega
      · exact h.1 z hz

theorem sortTsDesc_pairwise (l : List SessionRow) :
    List.Pairwise (fun a b => b.timestamp ≤ a.timestamp) (sortTsDesc l) := by
  induction l with
  | nil => simp [sortTsDesc]
  | cons x t ih => exact pairwise_insertTsDesc ih

/-! # Claims -/

/-- Claim C3: for distinct authenticated identities `a` and `b`, the session
    list seen by `a` — whether through the row-security-scoped client path
    (`fetchSessionsFromSupabase`, which issues no filter of its own, so the
    storage-layer policy is the only scoping) or through the server handler —
    never contains a row owned by `b`: every visible row is owned by `a`. -/
theorem c3_session_isolation (a b : String) (hab : a ≠ b) (table : List SessionRow) :
    (∀ r ∈ rlsVisibleSessions (some a) table, r.user_id = a ∧ r.user_id ≠ b)
    ∧ (∀ r ∈ clientSessionRows (some a) table, r.user_id = a ∧ r.user_id ≠ b)
    ∧ (∀ r ∈ serverSessionRows a table, r.user_id = a ∧ r.user_id ≠ b) := by
  have hrls : ∀ r ∈ rlsVisibleSessions (some a) table, r.user_id = a ∧ r.user_id ≠ b := by
    intro r hr
    have := (List.mem_filter.mp hr).2
    simp only [sessionsSelectPolicy, decide_eq_true_eq] at this
    exact ⟨this.symm, this ▸ hab⟩
  refine ⟨hrls, ?_, ?_⟩
  · intro r hr
    exact hrls r ((sortTsDesc_perm _).mem_iff.mp hr)
  · intro r hr
    have hr2 := (sortTsDesc_perm _).mem_iff.mp hr
    have := (List.mem_filter.mp hr2).2
    simp only [decide_eq_true_eq] at this
    exact ⟨this, this ▸ hab⟩

/-- Claim C3 witness: instantiation at two concrete identities and a table
    holding rows of both. -/
theorem c3_witness :
    (∀ r ∈ rlsVisibleSessions (some "alice")
        [⟨"s1", "alice", "f", 1, "x", [], "", "", none, none, none, none⟩,
         ⟨"s2", "bob", "g", 2, "y", [], "", "", none, none, none, none⟩],
      r.user_id = "alice" ∧ r.user_id ≠ "bob")
    ∧ (∀ r ∈ clientSessionRows (some "alice")
        [⟨"s1", "alice", "f", 1, "x", [], "", "", none, none, none, none⟩,
         ⟨"s2", "bob", "g", 2, "y", [], "", "", none, none, none, none⟩],
      r.user_id = "alice" ∧ r.user_id ≠ "bob")
    ∧ (∀ r ∈ serverSessionRows "alice"
        [⟨"s1", "alice", "f", 1, "x", [], "", "", none, none, none, none⟩,
         ⟨"s2", "bob", "g", 2, "y", [], "", "", none, none, none, none⟩],
      r.user_id = "alice" ∧ r.user_id ≠ "bob") :=
  c3_session_isolation "alice" "bob" (by decide) _

/-- Claim C8: both list paths return the owner's rows ordered newest-first:
    the result is pairwise non-increasing in `timestamp` and is a permutation
    of exactly the owner-filtered rows. -/
theorem c8_list_newest_first (uid : String) (authUid : Option String)
    (table : List SessionRow) :
    List.Pairwise (fun x y => y.timestamp ≤ x.timestamp) (serverSessionRows uid table)
    ∧ (serverSessionRows uid table).Perm
        (table.filter (fun r => r.user_id = uid))
    ∧ List.Pairwise (fun x y => y.timestamp ≤ x.timestamp) (clientSessionRows authUid table)
    ∧ (clientSessionRows authUid table).Perm (rlsVisibleSessions authUid table) :=
  ⟨sortTsDesc_pairwise _, sortTsDesc_perm _, sortTsDesc_pairwise _, sortTsDesc_perm _⟩

/-- Claim C10: with an empty allow-list (the unset environment variable
    parses to no entries) `isUrlAllowed` rejects every target — as it does
    any unparsable URL — so a fully populated proxy request is answered 403
    and the decision is never a forward. -/
theorem c10_fails_closed :
    parseAllowList "" = []
    ∧ (∀ url, isUrlAllowed [] url = false)
    ∧ (∀ allowList url, parseUrl url = none → isUrlAllowed allowList url = false)
    ∧ (∀ b u, proxyFieldsPresent b = true →
        proxyChatCompletions [] b u = ⟨403, RelayBody.errorMsg proxyForbiddenMsg none⟩
        ∧ ∀ url, proxyDecide [] b ≠ ProxyDecision.forwardTo url) := by
  have hempty : ∀ url, isUrlAllowed [] url = false := by
    intro url
    simp [isUrlAllowed]
  refine ⟨rfl, hempty, ?_, ?_⟩
  · intro allowList url h
    unfold isUrlAllowed
    split
    · rfl
    · simp [h]
  · intro b u hb
    have hd : proxyDecide [] b = ProxyDecision.forbidden := by
      unfold proxyDecide
      simp [hb, hempty]
    constructor
    · simp [proxyChatCompletions, hd]
    · intro url
      simp [hd]

/-- Claim C10 witness: a complete request against the empty allow-list is
    answered 403. -/
theorem c10_witness :
    proxyChatCompletions []
      ⟨some "https://api.example.com/v1", some "k", some "m", some (Json.jstr "x")⟩
      UpstreamOutcome.networkFailure =
      ⟨403, RelayBody.errorMsg proxyForbiddenMsg none⟩ :=
  (c10_fails_closed.2.2.2 _ UpstreamOutcome.networkFailure (by decide)).1

/-- Claim C7 counterexample: a correctly configured relay with a fully
    populated request answers an upstream 404 with status 404 — it mirrors
    `response.status` rather than responding 502 as the claim states. -/
theorem c7_counterexample :
    proxyChatCompletions ["https://api.example.com"]
      ⟨some "https://api.example.com/v1", some "k", some "m",
        some (Json.jarr [Json.jstr "hi"])⟩
      (UpstreamOutcome.httpResp 404 "Not Found" "upstream body") =
      ⟨404, RelayBody.errorMsg "Upstream API Error: Not Found" (some "upstream body")⟩
    ∧ (404 : Nat) ≠ 502 :=
  ⟨rfl, by decide⟩

/-- Claim C7 (amended): missing required fields give 400; a target whose
    origin fails the allow-list gives 403 and is never forwarded; an upstream
    non-2xx is answered with the upstream's own status, the upstream body
    carried in the error details. -/
theorem c7_relay_statuses (allowList : List String) (b : ProxyBody) (u : UpstreamOutcome) :
    (proxyFieldsPresent b = false →
        proxyChatCompletions allowList b u = ⟨400, RelayBody.errorMsg proxyMissingMsg none⟩)
    ∧ (proxyFieldsPresent b = true → isUrlAllowed allowList (b.targetUrl.getD "") = false →
        proxyChatCompletions allowList b u = ⟨403, RelayBody.errorMsg proxyForbiddenMsg none⟩
        ∧ ∀ url, proxyDecide allowList b ≠ ProxyDecision.forwardTo url)
    ∧ (∀ st stx bodyText, proxyFieldsPresent b = true →
        isUrlAllowed allowList (b.targetUrl.getD "") = true →
        ¬(200 ≤ st ∧ st ≤ 299) →
        proxyChatCompletions allowList b (UpstreamOutcome.httpResp st stx bodyText) =
          ⟨st, RelayBody.errorMsg ("Upstream API Error: " ++ stx) (some bodyText)⟩) := by
  refine ⟨?_, ?_, ?_⟩
  · intro hb
    simp [proxyChatCompletions, proxyDecide, hb]
  · intro hb hurl
    have hd : proxyDecide allowList b = ProxyDecision.forbidden := by
      simp [proxyDecide, hb, hurl]
    exact ⟨by simp [proxyChatCompletions, hd], by intro url; simp [hd]⟩
  · intro st stx bodyText hb hurl hst
    have hd : proxyDecide allowList b =
        ProxyDecision.forwardTo ((b.targetUrl.getD "") ++ "/chat/completions") := by
      simp [proxyDecide, hb, hurl]
    simp [proxyChatCompletions, hd, relayUpstream, hst]

/-- Claim C7 witness: the three branches at concrete inputs. -/
theorem c7_witness :
    proxyChatCompletions ["https://api.example.com"]
      ⟨some "https://api.example.com/v1", some "k", some "m", some (Json.jstr "x")⟩
      (UpstreamOutcome.httpResp 429 "Too Many Requests" "slow down") =
      ⟨429, RelayBody.errorMsg "Upstream API Error: Too Many Requests" (some "slow down")⟩ :=
  (c7_relay_statuses ["https://api.example.com"]
      ⟨some "https://api.example.com/v1", some "k", some "m", some (Json.jstr "x")⟩
      UpstreamOutcome.networkFailure).2.2 429 "Too Many Requests" "slow down"
    (by decide) (by decide) (by decide)

theorem isPrefixOf_refl (p : List Char) : p.isPrefixOf p = true := by
  conv_lhs => rw [show p.isPrefixOf p = p.isPrefixOf (p ++ []) by rw [List.append_nil]]
  exact isPrefixOf_append_self p []

/-- `substring(a.length + b.length ... )`-style extraction of the middle of a
    three-part concatenation. -/
theorem jsSubstring_extract (a b c : List Char) :
    jsSubstring (a ++ b ++ c) a.length (a.length + b.length) = b := by
  unfold jsSubstring
  have hlen : (a ++ b ++ c).length = a.length + b.length + c.length := by
    rw [List.length_append, List.length_append]
  have h1 : min a.length (a ++ b ++ c).length = a.length := by rw [hlen]; omega
  have h2 : min (a.length + b.length) (a ++ b ++ c).length = a.length + b.length := by
    rw [hlen]; omega
  rw [h1, h2, Nat.min_eq_left (by omega), Nat.max_eq_right (by omega)]
  have h3 : (a ++ b ++ c).take (a.length + b.length) = a ++ b := by
    rw [List.take_append_eq_append_take]
    have hab : (a ++ b).length = a.length + b.length := List.length_append a b
    rw [List.take_of_length_le (by omega)]
    simp [hab]
  rw [h3]
  exact List.drop_left a b

/-- In `pre ++ open ++ mid ++ close`, when `open` has no occurrence after the
    explicit one, `lastIndexOf` finds exactly the explicit one. -/
theorem lastIndexOf_marker (pre mid : List Char)
    (h : containsSub finalOpenL ((finalOpenL ++ mid ++ finalCloseL).drop 1) = false) :
    lastIndexOf? finalOpenL (pre ++ finalOpenL ++ mid ++ finalCloseL) =
      some pre.length := by
  have hassoc : pre ++ finalOpenL ++ mid ++ finalCloseL =
      pre ++ (finalOpenL ++ mid ++ finalCloseL) := by simp
  rw [hassoc]
  apply lastIndexOf?_eq_some
  · rw [List.drop_left]
    have : finalOpenL ++ mid ++ finalCloseL = finalOpenL ++ (mid ++ finalCloseL) := by simp
    rw [this]
    exact isPrefixOf_append_self _ _
  · intro i hi
    rw [List.drop_append_eq_append_drop, List.drop_eq_nil_of_le (by omega),
      List.nil_append]
    have hk : i - pre.length = 1 + (i - pre.length - 1) := by omega
    rw [hk, ← List.drop_drop]
    exact not_occurs_of_containsSub_false (by decide) h _
  · simp [List.length_append]

theorem lastIndexOf_close_marker (pre mid : List Char) :
    lastIndexOf? finalCloseL (pre ++ finalOpenL ++ mid ++ finalCloseL) =
      some (pre.length + finalOpenL.length + mid.length) := by
  have hassoc : pre ++ finalOpenL ++ mid ++ finalCloseL =
      (pre ++ finalOpenL ++ mid) ++ finalCloseL := by simp
  have hlen : (pre ++ finalOpenL ++ mid).length =
      pre.length + finalOpenL.length + mid.length := by
    rw [List.length_append, List.length_append]
  rw [hassoc]
  apply lastIndexOf?_eq_some
  · rw [← hlen, List.drop_left]
    exact isPrefixOf_refl _
  · intro i hi
    rw [List.drop_append_eq_append_drop, List.drop_eq_nil_of_le (by omega),
      List.nil_append]
    by_contra hcon
    rw [Bool.not_eq_false] at hcon
    have := length_le_of_isPrefixOf hcon
    rw [List.length_drop] at this
    have h13 : finalCloseL.length = 13 := by decide
    omega
  · simp [List.length_append]
    omega

/-- Claim C2 (amended, edge-function part): for any text of the form
    `pre ++ "<FINAL_JSON>" ++ mid ++ "</FINAL_JSON>"` in which the open tag
    does not reoccur after the explicit one, `parseResponse` parses exactly
    `mid` — whatever `pre` holds, tags and echoed payloads included. -/
theorem c2_last_tag_extraction (pre mid : String)
    (h : containsSub finalOpenL
        ((finalOpenL ++ mid.toList ++ finalCloseL).drop 1) = false) :
    parseResponse (pre ++ "<FINAL_JSON>" ++ mid ++ "</FINAL_JSON>") =
      parsePayload mid.toList := by
  have hraw : (pre ++ "<FINAL_JSON>" ++ mid ++ "</FINAL_JSON>").toList =
      pre.toList ++ finalOpenL ++ mid.toList ++ finalCloseL := rfl
  unfold parseResponse
  rw [hraw]
  simp only [lastIndexOf_marker pre.toList mid.toList h,
    lastIndexOf_close_marker pre.toList mid.toList]
  have hlt : pre.toList.length < pre.toList.length + finalOpenL.length + mid.toList.length := by
    have : finalOpenL.length = 12 := by decide
    omega
  rw [if_pos hlt]
  have hsub : jsSubstring (pre.toList ++ finalOpenL ++ mid.toList ++ finalCloseL)
      (pre.toList.length + finalOpenL.length)
      (pre.toList.length + finalOpenL.length + mid.toList.length) = mid.toList := by
    have hassoc : pre.toList ++ finalOpenL ++ mid.toList ++ finalCloseL =
        (pre.toList ++ finalOpenL) ++ mid.toList ++ finalCloseL := by simp
    have hplen : (pre.toList ++ finalOpenL).length =
        pre.toList.length + finalOpenL.length := List.length_append _ _
    rw [hassoc, ← hplen]
    exact jsSubstring_extract _ _ _
  rw [hsub]

/-- Claim C2 counterexample: the custom-AI normalizer — also named by the
    claim — locates the tags with `indexOf`, so on an input holding an echoed
    payload (score 11) before the real one (score 92) it parses the echo. -/
theorem c2_counterexample :
    customAiParseResponse
      ("<FINAL_JSON>\x7b\"reproducibility_score\":11\x7d</FINAL_JSON> and later the real "
        ++ "<FINAL_JSON>\x7b\"reproducibility_score\":92\x7d</FINAL_JSON>") =
      Except.ok ⟨Json.jstr "Could not extract summary.",
        Json.jstr "Could not extract reasoning.", [], "# Could not generate code.",
        [], Json.jnum 11 0, Json.jstr "Unknown"⟩
    ∧ Json.jnum 11 0 ≠ Json.jnum 92 0 :=
  ⟨rfl, by simp⟩

/-- Claim C2 witness: the same echoed text, run through the edge-function
    normalizer, parses the last payload. -/
theorem c2_witness :
    parseResponse
      ("<FINAL_JSON>\x7b\"reproducibility_score\":11\x7d</FINAL_JSON> and later the real "
        ++ "<FINAL_JSON>" ++ "\x7b\"reproducibility_score\":92\x7d" ++ "</FINAL_JSON>") =
      parsePayload "\x7b\"reproducibility_score\":92\x7d".toList :=
  c2_last_tag_extraction
    "<FINAL_JSON>\x7b\"reproducibility_score\":11\x7d</FINAL_JSON> and later the real "
    "\x7b\"reproducibility_score\":92\x7d" (by decide)

/-! ## Whitespace, trimming and case-insensitive suffix -/

theorem dropWhile_head_not {p : Char → Bool} {l : List Char} {c : Char}
    (h : (l.dropWhile p).head? = some c) : p c = false := by
  induction l with
  | nil => cases h
  | cons a t ih =>
    by_cases hp : p a
    · rw [List.dropWhile_cons, if_pos hp] at h
      exact ih h
    · rw [List.dropWhile_cons, if_neg hp] at h
      simp only [List.head?_cons, Option.some.injEq] at h
      subst h
      exact Bool.eq_false_iff.mpr hp

theorem dropWhile_eq_self_of_head {p : Char → Bool} {l : List Char}
    (h : ∀ c, l.head? = some c → p c = false) : l.dropWhile p = l := by
  cases l with
  | nil => rfl
  | cons a t =>
    have ha := h a rfl
    simp [List.dropWhile_cons, ha]

theorem getLast?_dropWhile {p : Char → Bool} {l : List Char}
    (h : l.dropWhile p ≠ []) : (l.dropWhile p).getLast? = l.getLast? := by
  induction l with
  | nil => simp at h
  | cons a t ih =>
    by_cases hp : p a
    · rw [List.dropWhile_cons, if_pos hp] at h ⊢
      rw [ih h]
      have ht : t ≠ [] := by
        intro he
        rw [he] at h
        simp at h
      cases t with
      | nil => exact absurd rfl ht
      | cons b u => rw [List.getLast?_cons_cons]
    · rw [List.dropWhile_cons, if_neg hp]

theorem dropTrailWs_eq_self {l : List Char}
    (h : ∀ c, l.getLast? = some c → jsWs c = false) : dropTrailWs l = l := by
  unfold dropTrailWs
  rw [dropWhile_eq_self_of_head, List.reverse_reverse]
  intro c hc
  rw [List.head?_reverse] at hc
  exact h c hc

theorem trimL_eq_self {l : List Char} (h1 : ∀ c, l.head? = some c → jsWs c = false)
    (h2 : ∀ c, l.getLast? = some c → jsWs c = false) : trimL l = l := by
  unfold trimL
  rw [dropWhile_eq_self_of_head h1, dropTrailWs_eq_self h2]

theorem trimL_head_not_ws {l : List Char} {c : Char}
    (h : (trimL l).head? = some c) : jsWs c = false := by
  unfold trimL dropTrailWs at h
  rw [List.head?_reverse] at h
  have hne : (l.dropWhile jsWs).reverse.dropWhile jsWs ≠ [] := by
    intro he
    rw [he] at h
    cases h
  rw [getLast?_dropWhile hne, List.getLast?_reverse] at h
  exact dropWhile_head_not h

theorem trimL_getLast_not_ws {l : List Char} {c : Char}
    (h : (trimL l).getLast? = some c) : jsWs c = false := by
  unfold trimL dropTrailWs at h
  rw [List.getLast?_reverse] at h
  exact dropWhile_head_not h

theorem dropWhile_append_of_head {p : Char → Bool} {tp : List Char}
    (h : ∀ c, tp.head? = some c → p c = false) (a : List Char) :
    (a ++ tp).dropWhile p = a.dropWhile p ++ tp := by
  induction a with
  | nil => simp [dropWhile_eq_self_of_head h]
  | cons x u ih =>
    by_cases hp : p x
    · simp [List.dropWhile_cons, hp, ih]
    · simp [List.dropWhile_cons, hp]

theorem endsWithCI_append (y tp sfx : List Char)
    (h : tp.map Char.toLower = sfx.map Char.toLower) :
    endsWithCI (y ++ tp) sfx = true := by
  unfold endsWithCI List.isSuffixOf
  rw [List.map_append, List.reverse_append, ← h]
  exact isPrefixOf_append_self _ _

theorem endsWithCI_decomp {x sfx : List Char} (h : endsWithCI x sfx = true) :
    sfx.length ≤ x.length ∧
    (x.drop (x.length - sfx.length)).map Char.toLower = sfx.map Char.toLower := by
  unfold endsWithCI List.isSuffixOf at h
  have hlen := length_le_of_isPrefixOf h
  simp only [List.length_reverse, List.length_map] at hlen
  refine ⟨hlen, ?_⟩
  have hd := eq_append_drop_of_isPrefixOf h
  have hrev := congrArg List.reverse hd
  rw [List.reverse_reverse, List.reverse_append, List.reverse_reverse] at hrev
  rw [List.map_drop, hrev]
  have hUlen : (((x.map Char.toLower).reverse.drop
      ((sfx.map Char.toLower).reverse.length)).reverse).length = x.length - sfx.length := by
    simp [List.length_reverse, List.length_drop, List.length_map]
  rw [← hUlen, List.drop_left]

theorem endsWithCI_last_lower_s {x : List Char} (h : endsWithCI x ccSuffixL = true) :
    ∃ c, x.getLast? = some c ∧ c.toLower = 's' := by
  obtain ⟨hlen, hmap⟩ := endsWithCI_decomp h
  have h17 : ccSuffixL.length = 17 := by decide
  have htplen : (x.drop (x.length - ccSuffixL.length)).length = ccSuffixL.length := by
    rw [List.length_drop]
    omega
  have hlast : ((x.drop (x.length - ccSuffixL.length)).map Char.toLower).getLast? =
      some 's' := by
    rw [hmap]
    decide
  rw [List.getLast?_map] at hlast
  cases hg : (x.drop (x.length - ccSuffixL.length)).getLast? with
  | none => rw [hg] at hlast; cases hlast
  | some c =>
    rw [hg] at hlast
    simp only [Option.map_some', Option.some.injEq] at hlast
    refine ⟨c, ?_, hlast⟩
    have hx : x.take (x.length - ccSuffixL.length) ++ x.drop (x.length - ccSuffixL.length)
        = x := List.take_append_drop _ _
    conv_lhs => rw [← hx]
    rw [List.getLast?_append, hg]
    rfl

theorem jsWs_toLower_self {c : Char} (h : jsWs c = true) : c.toLower = c := by
  unfold jsWs at h
  simp only [Bool.or_eq_true, decide_eq_true_eq] at h
  rcases h with ((((h | h) | h) | h) | h) | h <;> subst h <;> decide

theorem not_ws_of_toLower {c d : Char} (h : c.toLower = d) (hd : jsWs d = false) :
    jsWs c = false := by
  by_contra hc
  rw [Bool.not_eq_false] at hc
  rw [jsWs_toLower_self hc] at h
  subst h
  rw [hc] at hd
  cases hd

theorem stringMk_eq_empty_iff (l : List Char) : String.mk l = "" ↔ l = [] := by
  constructor
  · intro h
    have h2 := congrArg String.toList h
    simpa using h2
  · intro h
    rw [h]

/-- `getChatCompletionsUrl` fixes any non-empty text that does not start or
    end in whitespace, does not end in `/`, and already ends (module case)
    with the chat-completions path. -/
theorem getChatCompletionsUrl_fixed {l : List Char} (hne : l ≠ [])
    (hhead : ∀ c, l.head? = some c → jsWs c = false)
    (hlast : ∀ c, l.getLast? = some c → jsWs c = false ∧ c ≠ '/')
    (hends : endsWithCI l ccSuffixL = true) :
    getChatCompletionsUrl (String.mk l) = String.mk l := by
  unfold getChatCompletionsUrl
  have htoList : (String.mk l).toList = l := rfl
  rw [htoList]
  have hstrip : stripTrailSlash l = l := by
    unfold stripTrailSlash
    rw [if_neg]
    intro he
    exact (hlast '/' he).2 rfl
  rw [hstrip, trimL_eq_self hhead (fun c hc => (hlast c hc).1)]
  rw [if_neg (by simp [hne]), if_pos hends]

/-- When the input already ends (case-insensitively) with the
    chat-completions path, normalization is only the trim: no slash is
    stripped, the trimmed text is non-empty, still ends with the path, and
    the function returns exactly it. -/
theorem getChatCompletionsUrl_of_endsCI {s : String}
    (h : endsWithCI s.toList ccSuffixL = true) :
    getChatCompletionsUrl s = String.mk (trimL s.toList)
    ∧ trimL s.toList ≠ []
    ∧ endsWithCI (trimL s.toList) ccSuffixL = true := by
  obtain ⟨c, hcl, hcs⟩ := endsWithCI_last_lower_s h
  have hslash : c ≠ '/' := by
    intro hc
    subst hc
    exact absurd hcs (by decide)
  have hstrip : stripTrailSlash s.toList = s.toList := by
    unfold stripTrailSlash
    rw [if_neg]
    intro he
    rw [hcl] at he
    simp only [Option.some.injEq] at he
    exact hslash he
  obtain ⟨hlen, hmap⟩ := endsWithCI_decomp h
  have h17 : ccSuffixL.length = 17 := by decide
  have htplen : (s.toList.drop (s.toList.length - ccSuffixL.length)).length =
      ccSuffixL.length := by
    rw [List.length_drop]
    omega
  have htpne : s.toList.drop (s.toList.length - ccSuffixL.length) ≠ [] := by
    intro he
    rw [he] at htplen
    simp [h17] at htplen
  have htphead : ∀ d, (s.toList.drop (s.toList.length - ccSuffixL.length)).head? = some d →
      jsWs d = false := by
    intro d hd
    have hh : ((s.toList.drop (s.toList.length - ccSuffixL.length)).map Char.toLower).head?
        = some '/' := by
      rw [hmap]
      decide
    rw [List.head?_map, hd] at hh
    simp only [Option.map_some', Option.some.injEq] at hh
    exact not_ws_of_toLower hh (by decide)
  have htplast : ∀ d, (s.toList.drop (s.toList.length - ccSuffixL.length)).getLast? = some d →
      jsWs d = false := by
    intro d hd
    have hh : ((s.toList.drop (s.toList.length - ccSuffixL.length)).map Char.toLower).getLast?
        = some 's' := by
      rw [hmap]
      decide
    rw [List.getLast?_map, hd] at hh
    simp only [Option.map_some', Option.some.injEq] at hh
    exact not_ws_of_toLower hh (by decide)
  have hsplit : s.toList.take (s.toList.length - ccSuffixL.length) ++
      s.toList.drop (s.toList.length - ccSuffixL.length) = s.toList :=
    List.take_append_drop _ _
  have hdw : s.toList.dropWhile jsWs =
      (s.toList.take (s.toList.length - ccSuffixL.length)).dropWhile jsWs ++
        s.toList.drop (s.toList.length - ccSuffixL.length) := by
    conv_lhs => rw [← hsplit]
    exact dropWhile_append_of_head htphead _
  have htrim : trimL s.toList =
      (s.toList.take (s.toList.length - ccSuffixL.length)).dropWhile jsWs ++
        s.toList.drop (s.toList.length - ccSuffixL.length) := by
    unfold trimL
    rw [hdw]
    apply dropTrailWs_eq_self
    intro d hd
    rw [List.getLast?_append] at hd
    cases hg : (s.toList.drop (s.toList.length - ccSuffixL.length)).getLast? with
    | none => exact absurd (List.getLast?_eq_none_iff.mp hg) htpne
    | some e =>
      rw [hg, Option.or_some] at hd
      simp only [Option.some.injEq] at hd
      subst hd
      exact htplast e hg
  have hne : trimL s.toList ≠ [] := by
    rw [htrim]
    intro he
    rcases List.append_eq_nil.mp he with ⟨_, h2⟩
    exact htpne h2
  have hends2 : endsWithCI (trimL s.toList) ccSuffixL = true := by
    rw [htrim]
    exact endsWithCI_append _ _ _ hmap
  refine ⟨?_, hne, hends2⟩
  unfold getChatCompletionsUrl
  rw [hstrip, if_neg (by simpa using hne), if_pos hends2]

/-- Claim C9: `getChatCompletionsUrl` yields the empty string exactly when
    the input is empty after stripping one trailing slash and trimming;
    otherwise its output ends (case-insensitively) with `/chat/completions`;
    an input already ending with that path is returned trimmed, with no
    second suffix appended; and the function is idempotent. -/
theorem c9_chat_completions_url (s : String) :
    (getChatCompletionsUrl s = "" ↔ trimL (stripTrailSlash s.toList) = [])
    ∧ (getChatCompletionsUrl s = ""
        ∨ endsWithCI (getChatCompletionsUrl s).toList ccSuffixL = true)
    ∧ (endsWithCI s.toList ccSuffixL = true →
        getChatCompletionsUrl s = String.mk (trimL s.toList))
    ∧ getChatCompletionsUrl (getChatCompletionsUrl s) = getChatCompletionsUrl s := by
  by_cases hb : trimL (stripTrailSlash s.toList) = []
  · have hfs : getChatCompletionsUrl s = "" := by
      unfold getChatCompletionsUrl
      rw [if_pos (by simpa using hb)]
    refine ⟨⟨fun _ => hb, fun _ => hfs⟩, Or.inl hfs, ?_, by rw [hfs]; rfl⟩
    intro hends
    obtain ⟨_, hne, _⟩ := getChatCompletionsUrl_of_endsCI hends
    have hstripid : stripTrailSlash s.toList = s.toList := by
      obtain ⟨c, hcl, hcs⟩ := endsWithCI_last_lower_s hends
      unfold stripTrailSlash
      rw [if_neg]
      intro he
      rw [hcl] at he
      simp only [Option.some.injEq] at he
      subst he
      exact absurd hcs (by decide)
    rw [hstripid] at hb
    exact absurd hb hne
  · have hbase_head : ∀ c, (trimL (stripTrailSlash s.toList)).head? = some c →
        jsWs c = false := fun c hc => trimL_head_not_ws hc
    by_cases hends : endsWithCI (trimL (stripTrailSlash s.toList)) ccSuffixL = true
    · have hfs : getChatCompletionsUrl s =
          String.mk (trimL (stripTrailSlash s.toList)) := by
        unfold getChatCompletionsUrl
        rw [if_neg (by simpa using hb), if_pos hends]
      obtain ⟨c, hcl, hcs⟩ := endsWithCI_last_lower_s hends
      have hlast : ∀ d, (trimL (stripTrailSlash s.toList)).getLast? = some d →
          jsWs d = false ∧ d ≠ '/' := by
        intro d hd
        rw [hcl] at hd
        simp only [Option.some.injEq] at hd
        subst hd
        constructor
        · exact not_ws_of_toLower hcs (by decide)
        · intro hc
          subst hc
          exact absurd hcs (by decide)
      refine ⟨⟨?_, fun h2 => absurd h2 hb⟩, Or.inr (by rw [hfs]; exact hends),
        fun he => (getChatCompletionsUrl_of_endsCI he).1, ?_⟩
      · intro h
        rw [hfs] at h
        exact absurd ((stringMk_eq_empty_iff _).mp h) hb
      · rw [hfs]
        exact getChatCompletionsUrl_fixed hb hbase_head hlast hends
    · have hfs : getChatCompletionsUrl s =
          String.mk (trimL (stripTrailSlash s.toList) ++ ccSuffixL) := by
        unfold getChatCompletionsUrl
        rw [if_neg (by simpa using hb), if_neg (by simpa using hends)]
      have happend : endsWithCI (trimL (stripTrailSlash s.toList) ++ ccSuffixL)
          ccSuffixL = true := endsWithCI_append _ _ _ rfl
      have hne2 : trimL (stripTrailSlash s.toList) ++ ccSuffixL ≠ [] := by
        intro he
        exact hb (List.append_eq_nil.mp he).1
      have hhead2 : ∀ c, (trimL (stripTrailSlash s.toList) ++ ccSuffixL).head? = some c →
          jsWs c = false := by
        intro c hc
        rw [List.head?_append] at hc
        cases hg : (trimL (stripTrailSlash s.toList)).head? with
        | none =>
          exact absurd (List.head?_eq_none_iff.mp hg) hb
        | some b =>
          rw [hg, Option.or_some] at hc
          simp only [Option.some.injEq] at hc
          subst hc
          exact hbase_head b hg
      have hlast2 : ∀ d, (trimL (stripTrailSlash s.toList) ++ ccSuffixL).getLast? = some d →
          jsWs d = false ∧ d ≠ '/' := by
        intro d hd
        rw [List.getLast?_append] at hd
        have hcc : ccSuffixL.getLast? = some 's' := by decide
        rw [hcc, Option.or_some] at hd
        simp only [Option.some.injEq] at hd
        subst hd
        exact ⟨by decide, by decide⟩
      refine ⟨⟨?_, fun h2 => absurd h2 hb⟩, Or.inr (by rw [hfs]; exact happend),
        fun he => (getChatCompletionsUrl_of_endsCI he).1, ?_⟩
      · intro h
        rw [hfs] at h
        exact absurd ((stringMk_eq_empty_iff _).mp h) hne2
      · rw [hfs]
        exact getChatCompletionsUrl_fixed hne2 hhead2 hlast2 happend

/-- Claim C9 witness: evaluation of all four clauses at a concrete base URL. -/
theorem c9_witness :
    (getChatCompletionsUrl "https://api.example.com/v1" = "" ↔
      trimL (stripTrailSlash "https://api.example.com/v1".toList) = [])
    ∧ (getChatCompletionsUrl "https://api.example.com/v1" = ""
        ∨ endsWithCI (getChatCompletionsUrl "https://api.example.com/v1").toList
            ccSuffixL = true)
    ∧ (endsWithCI "https://api.example.com/v1".toList ccSuffixL = true →
        getChatCompletionsUrl "https://api.example.com/v1" =
          String.mk (trimL "https://api.example.com/v1".toList))
    ∧ getChatCompletionsUrl (getChatCompletionsUrl "https://api.example.com/v1") =
        getChatCompletionsUrl "https://api.example.com/v1" :=
  c9_chat_completions_url "https://api.example.com/v1"

/-- Claim C4 counterexample: an integrity field holding the (truthy,
    non-string) number 5 is passed through to the output instead of being
    defaulted to "Unknown" as the claim requires for non-strings. -/
theorem c4_counterexample :
    parseResponse "<FINAL_JSON>\x7b\"citation_integrity\":5\x7d</FINAL_JSON>" =
      Except.ok ⟨Json.jstr "Could not extract summary.",
        Json.jstr "Could not extract reasoning.", [], "# Could not generate code.",
        [], Json.jnum 75 0, Json.jnum 5 0⟩
    ∧ Json.jnum 5 0 ≠ Json.jstr "Unknown" :=
  ⟨rfl, by simp⟩

/-- Claim C4 (amended): on every successful run of the field-defaulting step,
    the score is exactly 75 iff absent or non-numeric (a numeric value passes
    through); the integrity label is exactly "Unknown" when the field is
    absent or *falsy*, while any truthy value — string or not — passes
    through; assumptions are empty when not an array and otherwise the first
    three entries in order; simulationData is empty when not an array and
    otherwise passed through. -/
theorem c4_field_defaults (parsed : Json) (r : EdgeResult)
    (h : normalizeParsed parsed = Except.ok r) :
    ((∀ m e, getField parsed "reproducibility_score" ≠ some (Json.jnum m e)) →
        r.reproducibilityScore = Json.jnum 75 0)
    ∧ (∀ m e, getField parsed "reproducibility_score" = some (Json.jnum m e) →
        r.reproducibilityScore = Json.jnum m e)
    ∧ ((∀ v, getField parsed "citation_integrity" = some v → truthy v = false) →
        r.citationIntegrity = Json.jstr "Unknown")
    ∧ (∀ v, getField parsed "citation_integrity" = some v → truthy v = true →
        r.citationIntegrity = v)
    ∧ ((∀ xs, getField parsed "critical_assumptions" ≠ some (Json.jarr xs)) →
        r.assumptions = [])
    ∧ (∀ xs, getField parsed "critical_assumptions" = some (Json.jarr xs) →
        r.assumptions = xs.take 3)
    ∧ ((∀ xs, getField parsed "simulation_data" ≠ some (Json.jarr xs)) →
        r.simulationData = [])
    ∧ (∀ xs, getField parsed "simulation_data" = some (Json.jarr xs) →
        r.simulationData = xs) := by
  unfold normalizeParsed at h
  split at h
  · cases h
  · rename_i hnotnull
    simp only [] at h
    split at h
    · rename_i code hcode
      rw [Except.ok.injEq] at h
      subst h
      refine ⟨?_, ?_, ?_, ?_, ?_, ?_, ?_, ?_⟩
      · intro hnone
        cases hg : getField parsed "reproducibility_score" with
        | none => rfl
        | some v =>
          cases v with
          | jnum m e => exact absurd hg (hnone m e)
          | jnull => rfl
          | jbool b => rfl
          | jstr s => rfl
          | jarr xs => rfl
          | jobj kvs => rfl
      · intro m e hg
        simp only [hg]
      · intro hfalsy
        simp only [jsOr]
        cases hg : getField parsed "citation_integrity" with
        | none => rfl
        | some v => simp [hfalsy v hg]
      · intro v hg htruthy
        simp only [jsOr, hg, htruthy, if_true]
      · intro hnone
        cases hg : getField parsed "critical_assumptions" with
        | none => rfl
        | some v =>
          cases v with
          | jarr xs => exact absurd hg (hnone xs)
          | jnull => rfl
          | jbool b => rfl
          | jstr s => rfl
          | jnum m e => rfl
          | jobj kvs => rfl
      · intro xs hg
        simp only [hg]
      · intro hnone
        cases hg : getField parsed "simulation_data" with
        | none => rfl
        | some v =>
          cases v with
          | jarr xs => exact absurd hg (hnone xs)
          | jnull => rfl
          | jbool b => rfl
          | jstr s => rfl
          | jnum m e => rfl
          | jobj kvs => rfl
      · intro xs hg
        simp only [hg]
    · cases h

/-- Claim C4 witness: a payload exercising a numeric score, a falsy (empty
    string) integrity label, a five-element assumptions array and a non-array
    simulationData at once. -/
theorem c4_witness :
    (Logos.normalizeParsed (Json.jobj
        [("reproducibility_score", Json.jnum 88 0),
         ("citation_integrity", Json.jstr ""),
         ("critical_assumptions", Json.jarr
            [Json.jstr "a", Json.jstr "b", Json.jstr "c", Json.jstr "d", Json.jstr "e"]),
         ("simulation_data", Json.jnum 1 0)]) =
      Except.ok ⟨Json.jstr "Could not extract summary.",
        Json.jstr "Could not extract reasoning.",
        [Json.jstr "a", Json.jstr "b", Json.jstr "c"], "# Could not generate code.",
        [], Json.jnum 88 0, Json.jstr "Unknown"⟩)
    ∧ (Json.jnum 88 0 = Json.jnum 88 0 ∧ Json.jstr "Unknown" = Json.jstr "Unknown"
        ∧ [Json.jstr "a", Json.jstr "b", Json.jstr "c"] =
            ([Json.jstr "a", Json.jstr "b", Json.jstr "c", Json.jstr "d",
              Json.jstr "e"].take 3)) := by
  have hok : Logos.normalizeParsed (Json.jobj
      [("reproducibility_score", Json.jnum 88 0),
       ("citation_integrity", Json.jstr ""),
       ("critical_assumptions", Json.jarr
          [Json.jstr "a", Json.jstr "b", Json.jstr "c", Json.jstr "d", Json.jstr "e"]),
       ("simulation_data", Json.jnum 1 0)]) =
      Except.ok ⟨Json.jstr "Could not extract summary.",
        Json.jstr "Could not extract reasoning.",
        [Json.jstr "a", Json.jstr "b", Json.jstr "c"], "# Could not generate code.",
        [], Json.jnum 88 0, Json.jstr "Unknown"⟩ := rfl
  have hc := c4_field_defaults _ _ hok
  refine ⟨hok, ?_, ?_, ?_⟩
  · exact hc.2.1 88 0 rfl
  · exact hc.2.2.1 (by intro v hv; cases hv; rfl)
  · exact hc.2.2.2.2.2.1 _ rfl

/-! ## Ellipsis sanitization over rendered numeric arrays -/

theorem isDigitChar_ne {c x : Char} (h : isDigitChar c = true)
    (hx : isDigitChar x = false) : c ≠ x := by
  intro he
  subst he
  rw [h] at hx
  cases hx

theorem jsWs_of_digit {c : Char} (h : isDigitChar c = true) : jsWs c = false := by
  unfold jsWs
  simp only [Bool.or_eq_false_iff, decide_eq_false_iff_not]
  exact ⟨⟨⟨⟨⟨isDigitChar_ne h (by decide), isDigitChar_ne h (by decide)⟩,
    isDigitChar_ne h (by decide)⟩, isDigitChar_ne h (by decide)⟩,
    isDigitChar_ne h (by decide)⟩, isDigitChar_ne h (by decide)⟩

theorem jsonWs_of_digit {c : Char} (h : isDigitChar c = true) : jsonWs c = false := by
  unfold jsonWs
  simp only [Bool.or_eq_false_iff, decide_eq_false_iff_not]
  exact ⟨⟨⟨isDigitChar_ne h (by decide), isDigitChar_ne h (by decide)⟩,
    isDigitChar_ne h (by decide)⟩, isDigitChar_ne h (by decide)⟩

theorem dots_not_prefix_of_head {c : Char} {t : List Char} (h : c ≠ '.') :
    dotsL.isPrefixOf (c :: t) = false := by
  show (['.', '.', '.'] : List Char).isPrefixOf (c :: t) = false
  simp only [List.isPrefixOf, Bool.and_eq_false_iff]
  left
  exact beq_eq_false_iff_ne.mpr (Ne.symm h)

theorem jsonNatToken_parts {ds : List Char} (h : jsonNatToken ds = true) :
    ds ≠ [] ∧ (∀ c ∈ ds, isDigitChar c = true) ∧
      (ds.head? ≠ some '0' ∨ ds = ['0']) := by
  unfold jsonNatToken at h
  simp only [Bool.and_eq_true, Bool.or_eq_true, Bool.not_eq_true', decide_eq_true_eq,
    List.all_eq_true] at h
  obtain ⟨⟨h1, h2⟩, h3⟩ := h
  refine ⟨?_, h2, h3⟩
  intro he
  subst he
  simp at h1

theorem removeCommaEllipsisFuel_nil (fuel : Nat) :
    removeCommaEllipsisFuel fuel [] = [] := by
  cases fuel <;> rfl

theorem removeCommaEllipsisFuel_append_nocomma {ds : List Char}
    (hds : ∀ c ∈ ds, c ≠ ',') :
    ∀ fuel t, ds.length + t.length ≤ fuel →
      removeCommaEllipsisFuel fuel (ds ++ t) =
        ds ++ removeCommaEllipsisFuel (fuel - ds.length) t := by
  induction ds with
  | nil =>
    intro fuel t hf
    simp
  | cons c cs ih =>
    intro fuel t hf
    simp only [List.length_cons] at hf
    obtain ⟨f, rfl⟩ : ∃ f, fuel = f + 1 := ⟨fuel - 1, by omega⟩
    simp only [List.cons_append, removeCommaEllipsisFuel,
      if_neg (hds c (List.mem_cons_self c cs))]
    have hlen : f + 1 - (c :: cs).length = f - cs.length := by
      simp only [List.length_cons]
      omega
    rw [hlen]
    exact congrArg (List.cons c)
      (ih (fun d hd => hds d (List.mem_cons_of_mem c hd)) f t (by omega))

theorem rceFuel_cons_noncomma {c : Char} (hc : ¬(c = ',')) (f : Nat) (t : List Char) :
    removeCommaEllipsisFuel (f + 1) (c :: t) = c :: removeCommaEllipsisFuel f t := by
  simp only [removeCommaEllipsisFuel]
  rw [if_neg hc]

theorem removeCommaEllipsisFuel_trailer :
    ∀ fuel, 2 ≤ fuel →
      removeCommaEllipsisFuel fuel (',' :: ' ' :: (dotsL ++ [']'])) = [']'] := by
  intro fuel hf
  obtain ⟨f, rfl⟩ : ∃ f, fuel = f + 1 + 1 := ⟨fuel - 2, by omega⟩
  have h1 : wsThenDots (' ' :: (dotsL ++ [']'])) = some [']'] := rfl
  simp only [removeCommaEllipsisFuel]
  rw [if_pos trivial, h1]
  simp only [removeCommaEllipsisFuel, removeCommaEllipsisFuel_nil]
  simp

theorem sepComma_head {ds : List Char} (rest : List (List Char)) (hne : ds ≠ []) :
    (sepComma (ds :: rest)).head? = ds.head? := by
  cases rest with
  | nil => rfl
  | cons d2 r2 =>
    show (ds ++ ',' :: ' ' :: sepComma (d2 :: r2)).head? = ds.head?
    rw [List.head?_append]
    cases hh : ds.head? with
    | none => exact absurd (List.head?_eq_none_iff.mp hh) hne
    | some c => exact Option.or_some

theorem sepComma_chars {dss : List (List Char)}
    (h : ∀ ds ∈ dss, jsonNatToken ds = true) :
    ∀ c ∈ sepComma dss, isDigitChar c = true ∨ c = ',' ∨ c = ' ' := by
  induction dss with
  | nil => intro c hc; cases hc
  | cons ds rest ih =>
    have hds := jsonNatToken_parts (h ds (List.mem_cons_self ds rest))
    cases rest with
    | nil =>
      intro c hc
      exact Or.inl (hds.2.1 c hc)
    | cons d2 r2 =>
      intro c hc
      show isDigitChar c = true ∨ c = ',' ∨ c = ' '
      rcases List.mem_append.mp hc with hc | hc
      · exact Or.inl (hds.2.1 c hc)
      · rcases List.mem_cons.mp hc with rfl | hc
        · exact Or.inr (Or.inl rfl)
        · rcases List.mem_cons.mp hc with rfl | hc
          · exact Or.inr (Or.inr rfl)
          · exact ih (fun d hd => h d (List.mem_cons_of_mem ds hd)) c hc

theorem rceFuel_comma_space_step {Y : List Char} {c0 : Char}
    (hY : Y.head? = some c0) (hdig : isDigitChar c0 = true) :
    ∀ fuel, 2 ≤ fuel → removeCommaEllipsisFuel fuel (',' :: ' ' :: Y) =
      ',' :: ' ' :: removeCommaEllipsisFuel (fuel - 2) Y := by
  intro fuel hf
  obtain ⟨f, rfl⟩ : ∃ f, fuel = f + 1 + 1 := ⟨fuel - 2, by omega⟩
  have hYne : Y ≠ [] := by
    intro he
    rw [he] at hY
    cases hY
  have hwsd : wsThenDots (' ' :: Y) = none := by
    unfold wsThenDots
    have hdw : List.dropWhile jsWs (' ' :: Y) = Y := by
      rw [List.dropWhile_cons, if_pos (by decide)]
      apply dropWhile_eq_self_of_head
      intro c hc
      rw [hY] at hc
      simp only [Option.some.injEq] at hc
      subst hc
      exact jsWs_of_digit hdig
    simp only [hdw]
    cases Y with
    | nil => exact absurd rfl hYne
    | cons y t =>
      simp only [List.head?_cons, Option.some.injEq] at hY
      have hdigy : isDigitChar y = true := by
        rw [hY]
        exact hdig
      rw [show (['.', '.', '.'] : List Char).isPrefixOf (y :: t) =
          dotsL.isPrefixOf (y :: t) from rfl]
      rw [dots_not_prefix_of_head (isDigitChar_ne hdigy (by decide))]
      simp
  simp only [removeCommaEllipsisFuel]
  rw [if_pos trivial, hwsd]
  have h2 : ¬(' ' = ',') := by decide
  rw [if_neg h2, show f + 1 + 1 - 2 = f from by omega]

theorem rceFuel_sep (dss : List (List Char))
    (h : ∀ ds ∈ dss, jsonNatToken ds = true) :
    ∀ fuel, (sepComma dss).length + 6 ≤ fuel →
      removeCommaEllipsisFuel fuel (sepComma dss ++ (',' :: ' ' :: (dotsL ++ [']']))) =
        sepComma dss ++ [']'] := by
  induction dss with
  | nil =>
    intro fuel hf
    have hf2 : 2 ≤ fuel := by
      rw [show sepComma [] = ([] : List Char) from rfl] at hf
      simp only [List.length_nil] at hf
      omega
    show removeCommaEllipsisFuel fuel (([] : List Char) ++ (',' :: ' ' :: (dotsL ++ [']']))) =
      ([] : List Char) ++ [']']
    rw [List.nil_append, List.nil_append]
    exact removeCommaEllipsisFuel_trailer fuel hf2
  | cons ds rest ih =>
    have hds := jsonNatToken_parts (h ds (List.mem_cons_self ds rest))
    have hdsnc : ∀ c ∈ ds, c ≠ ',' :=
      fun c hc => isDigitChar_ne (hds.2.1 c hc) (by decide)
    cases rest with
    | nil =>
      intro fuel hf
      have hf2 : ds.length + 6 ≤ fuel := by
        rw [show sepComma [ds] = ds from rfl] at hf
        exact hf
      have htail : (',' :: ' ' :: (dotsL ++ [']']) : List Char).length = 6 := by decide
      show removeCommaEllipsisFuel fuel (ds ++ (',' :: ' ' :: (dotsL ++ [']']))) = ds ++ [']']
      rw [removeCommaEllipsisFuel_append_nocomma hdsnc fuel (',' :: ' ' :: (dotsL ++ [']']))
        (by rw [htail]; omega)]
      rw [removeCommaEllipsisFuel_trailer _ (by omega)]
    | cons d2 r2 =>
      intro fuel hf
      have hsep : sepComma (ds :: d2 :: r2) = ds ++ ',' :: ' ' :: sepComma (d2 :: r2) := rfl
      have hlen1 : (sepComma (ds :: d2 :: r2)).length =
          ds.length + 2 + (sepComma (d2 :: r2)).length := by
        rw [hsep, List.length_append]
        simp only [List.length_cons]
        omega
      rw [hlen1] at hf
      have hd2 := jsonNatToken_parts
        (h d2 (List.mem_cons_of_mem ds (List.mem_cons_self d2 r2)))
      obtain ⟨c0, hc0⟩ : ∃ c0, d2.head? = some c0 := by
        cases d2 with
        | nil => exact absurd rfl hd2.1
        | cons x xs => exact ⟨x, rfl⟩
      have hhead : (sepComma (d2 :: r2) ++ (',' :: ' ' :: (dotsL ++ [']']))).head? = some c0 := by
        rw [List.head?_append, sepComma_head r2 hd2.1, hc0]
        exact Option.or_some
      have hdig0 : isDigitChar c0 = true := by
        apply hd2.2.1
        cases d2 with
        | nil => exact absurd rfl hd2.1
        | cons x xs =>
          simp only [List.head?_cons, Option.some.injEq] at hc0
          subst hc0
          exact List.mem_cons_self _ _
      have hrest : (',' :: ' ' :: (sepComma (d2 :: r2) ++ (',' :: ' ' :: (dotsL ++ [']'])))
          : List Char).length = (sepComma (d2 :: r2)).length + 8 := by
        simp only [List.length_cons, List.length_append, List.length_nil]
        have hdl : dotsL.length = 3 := by
          rw [show dotsL = ['.', '.', '.'] from rfl]
          rfl
        omega
      rw [hsep, List.append_assoc, List.append_assoc]
      simp only [List.cons_append]
      rw [removeCommaEllipsisFuel_append_nocomma hdsnc fuel
        (',' :: ' ' :: (sepComma (d2 :: r2) ++ (',' :: ' ' :: (dotsL ++ [']']))))
        (by rw [hrest]; omega)]
      rw [rceFuel_comma_space_step hhead hdig0 (fuel - ds.length) (by omega)]
      rw [ih (fun d hd => h d (List.mem_cons_of_mem ds hd)) (fuel - ds.length - 2) (by omega)]

theorem removeAllSubFuel_dots_id {l : List Char} (h : ∀ c ∈ l, c ≠ '.') :
    ∀ fuel, removeAllSubFuel dotsL fuel l = l := by
  induction l with
  | nil => intro fuel; cases fuel <;> rfl
  | cons c t ih =>
    intro fuel
    cases fuel with
    | zero => rfl
    | succ f =>
      simp only [removeAllSubFuel,
        dots_not_prefix_of_head (h c (List.mem_cons_self c t))]
      rw [ih (fun d hd => h d (List.mem_cons_of_mem c hd)) f]
      simp

/-- The ellipsis stages of `parseResponse` clean a rendered numeric array
    with a trailing `, ...` down to exactly the array without it. -/
theorem edgeSanitize_span (dss : List (List Char))
    (h : ∀ ds ∈ dss, jsonNatToken ds = true) :
    edgeSanitize ('[' :: (sepComma dss ++ (',' :: ' ' :: (dotsL ++ [']'])))) =
      '[' :: (sepComma dss ++ [']']) := by
  unfold edgeSanitize removeCommaEllipsis
  have hstep1 : removeCommaEllipsisFuel
      ('[' :: (sepComma dss ++ (',' :: ' ' :: (dotsL ++ [']'])))).length
      ('[' :: (sepComma dss ++ (',' :: ' ' :: (dotsL ++ [']'])))) =
        '[' :: (sepComma dss ++ [']']) := by
    have hlen : ('[' :: (sepComma dss ++ (',' :: ' ' :: (dotsL ++ [']'])))).length =
        (sepComma dss ++ (',' :: ' ' :: (dotsL ++ [']']))).length + 1 := by
      simp
    rw [hlen, rceFuel_cons_noncomma (by decide)
      (sepComma dss ++ (',' :: ' ' :: (dotsL ++ [']']))).length
      (sepComma dss ++ (',' :: ' ' :: (dotsL ++ [']'])))]
    rw [rceFuel_sep dss h (sepComma dss ++ (',' :: ' ' :: (dotsL ++ [']']))).length (by
      simp only [List.length_append, List.length_cons]
      have hdl : dotsL.length = 3 := by
        rw [show dotsL = ['.', '.', '.'] from rfl]
        rfl
      omega)]
  rw [hstep1]
  unfold removeAllSub
  apply removeAllSubFuel_dots_id
  intro c hc
  rcases List.mem_cons.mp hc with rfl | hc
  · decide
  · rcases List.mem_append.mp hc with hc | hc
    · rcases sepComma_chars h c hc with hd | rfl | rfl
      · exact isDigitChar_ne hd (by decide)
      · decide
      · decide
    · rcases List.mem_cons.mp hc with rfl | hc
      · decide
      · cases hc

theorem takeWhile_append_not_head {p : Char → Bool} :
    ∀ (ds r : List Char), (∀ c ∈ ds, p c = true) →
      (∀ c0, r.head? = some c0 → p c0 = false) →
      (ds ++ r).takeWhile p = ds ∧ (ds ++ r).dropWhile p = r := by
  intro ds
  induction ds with
  | nil =>
    intro r hds hr
    cases r with
    | nil => exact ⟨rfl, rfl⟩
    | cons c t =>
      constructor
      · simp [List.takeWhile_cons, hr c rfl]
      · simp [List.dropWhile_cons, hr c rfl]
  | cons c cs ih =>
    intro r hds hr
    have hc : p c = true := hds c (List.mem_cons_self c cs)
    have hih := ih r (fun d hd => hds d (List.mem_cons_of_mem c hd)) hr
    constructor
    · simp [List.takeWhile_cons, hc, hih.1]
    · simp [List.dropWhile_cons, hc, hih.2]

theorem readNumTail_stop (ip : Nat) (r : List Char)
    (hdot : r.head? ≠ some '.') (he : r.head? ≠ some 'e') (hE : r.head? ≠ some 'E') :
    readNumTail ip r = some ((ip : Int), 0, r) := by
  unfold readNumTail
  rw [if_neg hdot]
  cases r with
  | nil => simp [readNumExp]
  | cons e t =>
    have hee : ¬(e = 'e' ∨ e = 'E') := by
      rintro (rfl | rfl)
      · exact he rfl
      · exact hE rfl
    simp [readNumExp, hee]

theorem readJsonNumCore_token (ds r : List Char) (h : jsonNatToken ds = true)
    (hr : ∀ c0, r.head? = some c0 →
      isDigitChar c0 = false ∧ c0 ≠ '.' ∧ c0 ≠ 'e' ∧ c0 ≠ 'E') :
    readJsonNumCore (ds ++ r) = some ((digitsVal ds : Int), 0, r) := by
  obtain ⟨hne, hdig, hz⟩ := jsonNatToken_parts h
  have hrdot : r.head? ≠ some '.' := fun hh => ((hr '.' hh).2.1) rfl
  have hre : r.head? ≠ some 'e' := fun hh => ((hr 'e' hh).2.2.1) rfl
  have hrE : r.head? ≠ some 'E' := fun hh => ((hr 'E' hh).2.2.2) rfl
  rcases hz with hz | rfl
  · cases ds with
    | nil => exact absurd rfl hne
    | cons c cs =>
      have hc : isDigitChar c = true := hdig c (List.mem_cons_self c cs)
      have hc0 : ¬(c = '0') := by
        intro he0
        apply hz
        rw [List.head?_cons, he0]
      have hsplit := takeWhile_append_not_head (c :: cs) r hdig
        (fun c0 hc0 => (hr c0 hc0).1)
      rw [List.cons_append]
      simp only [readJsonNumCore]
      rw [if_neg hc0, if_pos hc, ← List.cons_append, hsplit.1, hsplit.2]
      exact readNumTail_stop (digitsVal (c :: cs)) r hrdot hre hrE
  · have hnd : isDigitChar (r.headD ' ') = false := by
      cases r with
      | nil => rfl
      | cons c0 t => exact (hr c0 rfl).1
    show readJsonNumCore ('0' :: r) = some ((digitsVal ['0'] : Int), 0, r)
    simp only [readJsonNumCore]
    rw [if_pos trivial]
    simp only [hnd, Bool.false_eq_true, if_false]
    exact readNumTail_stop 0 r hrdot hre hrE

theorem readJsonNum_token (ds r : List Char) (h : jsonNatToken ds = true)
    (hr : ∀ c0, r.head? = some c0 →
      isDigitChar c0 = false ∧ c0 ≠ '.' ∧ c0 ≠ 'e' ∧ c0 ≠ 'E') :
    readJsonNum (ds ++ r) = some (Json.jnum (digitsVal ds) 0, r) := by
  obtain ⟨hne, hdig, _⟩ := jsonNatToken_parts h
  have hneg : (ds ++ r).head? ≠ some '-' := by
    cases ds with
    | nil => exact absurd rfl hne
    | cons c cs =>
      intro hh
      simp only [List.cons_append, List.head?_cons, Option.some.injEq] at hh
      have hcd := hdig c (List.mem_cons_self c cs)
      rw [hh] at hcd
      exact absurd hcd (by decide)
  unfold readJsonNum
  rw [if_neg hneg, readJsonNumCore_token ds r h hr]
  rfl

theorem readJsonVal_token (ds r : List Char) (h : jsonNatToken ds = true)
    (hr : ∀ c0, r.head? = some c0 →
      isDigitChar c0 = false ∧ c0 ≠ '.' ∧ c0 ≠ 'e' ∧ c0 ≠ 'E') :
    ∀ fuel, readJsonVal (fuel + 1) (ds ++ r) =
      some (Json.jnum (digitsVal ds) 0, r) := by
  intro fuel
  obtain ⟨hne, hdig, _⟩ := jsonNatToken_parts h
  cases ds with
  | nil => exact absurd rfl hne
  | cons c cs =>
    have hc : isDigitChar c = true := hdig c (List.mem_cons_self c cs)
    rw [List.cons_append]
    simp only [readJsonVal]
    rw [if_neg (isDigitChar_ne hc (by decide)), if_neg (isDigitChar_ne hc (by decide)),
        if_neg (isDigitChar_ne hc (by decide)), if_neg (isDigitChar_ne hc (by decide)),
        if_neg (isDigitChar_ne hc (by decide)), if_neg (isDigitChar_ne hc (by decide))]
    rw [← List.cons_append]
    exact readJsonNum_token (c :: cs) r h hr

theorem readJsonElems_sep (dss : List (List Char))
    (h : ∀ ds ∈ dss, jsonNatToken ds = true) :
    dss ≠ [] → ∀ fuel, dss.length + 1 ≤ fuel →
      readJsonElems fuel (sepComma dss ++ [']']) =
        some (dss.map (fun ds => Json.jnum (digitsVal ds) 0), []) := by
  induction dss with
  | nil => intro hne; exact absurd rfl hne
  | cons ds rest ih =>
    intro _ fuel hf
    obtain ⟨f2, rfl⟩ : ∃ f2, fuel = f2 + 1 + 1 :=
      ⟨fuel - 2, by simp only [List.length_cons] at hf; omega⟩
    have hds := h ds (List.mem_cons_self ds rest)
    cases rest with
    | nil =>
      have hr1 : ∀ c0, ([']'] : List Char).head? = some c0 →
          isDigitChar c0 = false ∧ c0 ≠ '.' ∧ c0 ≠ 'e' ∧ c0 ≠ 'E' := by
        intro c0 hc0
        simp only [List.head?_cons, Option.some.injEq] at hc0
        subst hc0
        exact ⟨by decide, by decide, by decide, by decide⟩
      rw [show sepComma [ds] = ds from rfl]
      simp only [readJsonElems]
      rw [readJsonVal_token ds [']'] hds hr1 f2]
      rfl
    | cons d2 r2 =>
      have hr2 : ∀ c0, (',' :: ' ' :: (sepComma (d2 :: r2) ++ [']'])).head? = some c0 →
          isDigitChar c0 = false ∧ c0 ≠ '.' ∧ c0 ≠ 'e' ∧ c0 ≠ 'E' := by
        intro c0 hc0
        simp only [List.head?_cons, Option.some.injEq] at hc0
        subst hc0
        exact ⟨by decide, by decide, by decide, by decide⟩
      have hd2p := jsonNatToken_parts
        (h d2 (List.mem_cons_of_mem ds (List.mem_cons_self d2 r2)))
      obtain ⟨c1, hc1⟩ : ∃ c1, d2.head? = some c1 := by
        cases d2 with
        | nil => exact absurd rfl hd2p.1
        | cons x xs => exact ⟨x, rfl⟩
      have hd1 : isDigitChar c1 = true := by
        apply hd2p.2.1
        cases d2 with
        | nil => exact absurd rfl hd2p.1
        | cons x xs =>
          simp only [List.head?_cons, Option.some.injEq] at hc1
          subst hc1
          exact List.mem_cons_self _ _
      have hskip : skipJsonWs (' ' :: (sepComma (d2 :: r2) ++ [']'])) =
          sepComma (d2 :: r2) ++ [']'] := by
        unfold skipJsonWs
        rw [List.dropWhile_cons, if_pos (by decide)]
        apply dropWhile_eq_self_of_head
        intro c0 hc0
        rw [List.head?_append, sepComma_head r2 hd2p.1, hc1] at hc0
        rw [Option.or_some] at hc0
        simp only [Option.some.injEq] at hc0
        subst hc0
        exact jsonWs_of_digit hd1
      have hrec := ih (fun d hd => h d (List.mem_cons_of_mem ds hd))
        (List.cons_ne_nil d2 r2) (f2 + 1)
        (by simp only [List.length_cons] at hf ⊢; omega)
      rw [show sepComma (ds :: d2 :: r2) = ds ++ ',' :: ' ' :: sepComma (d2 :: r2) from rfl,
          List.append_assoc]
      simp only [List.cons_append]
      simp only [readJsonElems]
      rw [readJsonVal_token ds (',' :: ' ' :: (sepComma (d2 :: r2) ++ [']'])) hds hr2 f2]
      show (readJsonElems (f2 + 1)
          (skipJsonWs (' ' :: (sepComma (d2 :: r2) ++ [']'])))).map
            (fun p => (Json.jnum (digitsVal ds) 0 :: p.1, p.2)) =
        some ((ds :: d2 :: r2).map (fun ds => Json.jnum (digitsVal ds) 0), [])
      rw [hskip, hrec]
      rfl

theorem sepComma_length_ge :
    ∀ (dss : List (List Char)), dss.length ≤ (sepComma dss).length + 1 := by
  intro dss
  induction dss with
  | nil => simp [sepComma]
  | cons ds rest ih =>
    cases rest with
    | nil =>
      rw [show sepComma [ds] = ds from rfl]
      simp
    | cons d2 r2 =>
      rw [show sepComma (ds :: d2 :: r2) = ds ++ ',' :: ' ' :: sepComma (d2 :: r2) from rfl]
      simp only [List.length_cons, List.length_append] at ih ⊢
      omega

theorem sepComma_append_head (dss : List (List Char))
    (h : ∀ ds ∈ dss, jsonNatToken ds = true) (hne : dss ≠ []) (r : List Char) :
    ∃ c1, (sepComma dss ++ r).head? = some c1 ∧ isDigitChar c1 = true := by
  cases dss with
  | nil => exact absurd rfl hne
  | cons ds rest =>
    have hds := jsonNatToken_parts (h ds (List.mem_cons_self ds rest))
    obtain ⟨c1, hc1, hm⟩ : ∃ c1, ds.head? = some c1 ∧ c1 ∈ ds := by
      cases ds with
      | nil => exact absurd rfl hds.1
      | cons x xs => exact ⟨x, rfl, List.mem_cons_self x xs⟩
    refine ⟨c1, ?_, hds.2.1 c1 hm⟩
    rw [List.head?_append, sepComma_head rest hds.1, hc1]
    exact Option.or_some

theorem parseJsonText_sepArr (dss : List (List Char))
    (h : ∀ ds ∈ dss, jsonNatToken ds = true) (hne : dss ≠ []) :
    parseJsonText ('[' :: (sepComma dss ++ [']'])) =
      some (Json.jarr (dss.map (fun ds => Json.jnum (digitsVal ds) 0))) := by
  obtain ⟨c1, hh, hd1⟩ := sepComma_append_head dss h hne [']']
  have hskip0 : skipJsonWs ('[' :: (sepComma dss ++ [']'])) =
      '[' :: (sepComma dss ++ [']']) := by
    unfold skipJsonWs
    rw [List.dropWhile_cons, if_neg (by decide)]
  have hskipt : skipJsonWs (sepComma dss ++ [']']) = sepComma dss ++ [']'] := by
    unfold skipJsonWs
    apply dropWhile_eq_self_of_head
    intro c0 hc0
    rw [hh] at hc0
    simp only [Option.some.injEq] at hc0
    subst hc0
    exact jsonWs_of_digit hd1
  have hnotbr : ¬((skipJsonWs (sepComma dss ++ [']'])).head? = some ']') := by
    rw [hskipt, hh]
    intro hcontra
    simp only [Option.some.injEq] at hcontra
    rw [hcontra] at hd1
    exact absurd hd1 (by decide)
  have hval : readJsonVal ((sepComma dss ++ [']']).length + 1 + 1)
      ('[' :: (sepComma dss ++ [']'])) =
      some (Json.jarr (dss.map (fun ds => Json.jnum (digitsVal ds) 0)), []) := by
    simp only [readJsonVal]
    rw [if_pos trivial, if_neg hnotbr, hskipt]
    rw [readJsonElems_sep dss h hne ((sepComma dss ++ [']']).length + 1) (by
      have hge := sepComma_length_ge dss
      simp only [List.length_append, List.length_cons, List.length_nil]
      omega)]
    rfl
  unfold parseJsonText
  rw [hskip0]
  rw [show ('[' :: (sepComma dss ++ [']'])).length =
    (sepComma dss ++ [']']).length + 1 from by simp]
  rw [hval]
  rfl

theorem dots_prefix_append_nondot (D : List Char) (c : Char) (hc : ¬(c = '.'))
    (X : List Char) (h : dotsL.isPrefixOf D = false) :
    dotsL.isPrefixOf (D ++ c :: X) = false := by
  show (['.', '.', '.'] : List Char).isPrefixOf (D ++ c :: X) = false
  have hcb : (('.' : Char) == c) = false :=
    beq_eq_false_iff_ne.mpr (fun he => hc he.symm)
  cases D with
  | nil =>
    rw [List.nil_append]
    exact dots_not_prefix_of_head (fun he => hc he)
  | cons d1 D1 =>
    cases D1 with
    | nil => simp [List.isPrefixOf, hcb]
    | cons d2 D2 =>
      cases D2 with
      | nil => simp [List.isPrefixOf, hcb]
      | cons d3 D3 =>
        simp only [List.cons_append, List.isPrefixOf] at h ⊢
        simpa using h

theorem dots_not_prefix_ws_scan (X : List Char) (c : Char) (hc : ¬(c = '.'))
    (hcw : jsWs c = false) :
    ∀ (A : List Char), (∀ i, dotsL.isPrefixOf (A.drop i) = false) →
      dotsL.isPrefixOf ((A ++ c :: X).dropWhile jsWs) = false := by
  intro A
  induction A with
  | nil =>
    intro _
    have hcw' : ¬(jsWs c = true) := by
      rw [hcw]
      exact Bool.false_ne_true
    rw [List.nil_append, List.dropWhile_cons, if_neg hcw']
    exact dots_not_prefix_of_head hc
  | cons a A' ih =>
    intro h
    rw [List.cons_append, List.dropWhile_cons]
    by_cases ha : jsWs a = true
    · rw [if_pos ha]
      exact ih (fun i => h (i + 1))
    · rw [if_neg ha]
      exact dots_prefix_append_nondot (a :: A') c hc X (h 0)

theorem wsThenDots_none_of_nodots (A X : List Char)
    (h : ∀ i, dotsL.isPrefixOf (A.drop i) = false) :
    wsThenDots (A ++ ',' :: X) = none := by
  have hfalse : (['.', '.', '.'] : List Char).isPrefixOf
      ((A ++ ',' :: X).dropWhile jsWs) = false :=
    dots_not_prefix_ws_scan X ',' (by decide) (by decide) A h
  unfold wsThenDots
  simp only [hfalse]
  simp

theorem rceFuel_nodots (A : List Char) :
    (∀ i, dotsL.isPrefixOf (A.drop i) = false) →
    ∀ fuel, A.length + 2 ≤ fuel →
      removeCommaEllipsisFuel fuel (A ++ (',' :: ' ' :: (dotsL ++ [']']))) =
        A ++ [']'] := by
  induction A with
  | nil =>
    intro _ fuel hf
    simp only [List.length_nil] at hf
    rw [List.nil_append, List.nil_append]
    exact removeCommaEllipsisFuel_trailer fuel (by omega)
  | cons c A' ih =>
    intro h fuel hf
    simp only [List.length_cons] at hf
    obtain ⟨f, rfl⟩ : ∃ f, fuel = f + 1 := ⟨fuel - 1, by omega⟩
    have h' : ∀ i, dotsL.isPrefixOf (A'.drop i) = false := fun i => h (i + 1)
    rw [List.cons_append]
    by_cases hc : c = ','
    · subst hc
      simp only [removeCommaEllipsisFuel]
      rw [if_pos trivial]
      rw [wsThenDots_none_of_nodots A' (' ' :: (dotsL ++ [']'])) h']
      rw [ih h' f (by omega)]
      rfl
    · simp only [removeCommaEllipsisFuel]
      rw [if_neg hc, ih h' f (by omega)]
      rfl

theorem removeAllSubFuel_nodots : ∀ (l : List Char),
    (∀ i, dotsL.isPrefixOf (l.drop i) = false) →
    ∀ fuel, removeAllSubFuel dotsL fuel l = l := by
  intro l
  induction l with
  | nil => intro _ fuel; cases fuel <;> rfl
  | cons c t ih =>
    intro h fuel
    cases fuel with
    | zero => rfl
    | succ f =>
      have h0 : dotsL.isPrefixOf (c :: t) = false := h 0
      simp only [removeAllSubFuel, h0]
      rw [ih (fun i => h (i + 1)) f]
      simp

theorem nodots_append_bracket (A : List Char)
    (h : ∀ i, dotsL.isPrefixOf (A.drop i) = false) :
    ∀ i, dotsL.isPrefixOf ((A ++ [']']).drop i) = false := by
  induction A with
  | nil =>
    intro i
    cases i with
    | zero => decide
    | succ n =>
      show dotsL.isPrefixOf (List.drop n []) = false
      rw [List.drop_nil]
      decide
  | cons c A' ih =>
    intro i
    cases i with
    | zero => exact dots_prefix_append_nondot (c :: A') ']' (by decide) [] (h 0)
    | succ n => exact ih (fun j => h (j + 1)) n

theorem edgeSanitize_nodots_span (A : List Char)
    (h : ∀ i, dotsL.isPrefixOf (A.drop i) = false) :
    edgeSanitize (A ++ (',' :: ' ' :: (dotsL ++ [']']))) = A ++ [']'] := by
  unfold edgeSanitize removeCommaEllipsis
  rw [rceFuel_nodots A h (A ++ (',' :: ' ' :: (dotsL ++ [']']))).length (by
    simp only [List.length_append, List.length_cons]
    omega)]
  unfold removeAllSub
  exact removeAllSubFuel_nodots (A ++ [']']) (nodots_append_bracket A h)
    (A ++ [']']).length

/-- Claim C6 counterexample: when the remote create fails, `handleNewSession`
    performs exactly one effect — the local write — and no user notification
    of any kind, so the caller is *not* informed the record is persisted only
    locally. -/
theorem c6_counterexample :
    handleNewSession true (some "u1") none c6demo [] =
      ⟨[c6demo], some "local-1", [ClientEffect.storeLocalSessions [c6demo]]⟩
    ∧ ((handleNewSession true (some "u1") none c6demo []).effects.all
        (fun e => match e with
          | ClientEffect.notifyUser _ => false
          | _ => true)) = true :=
  ⟨rfl, rfl⟩

/-- Claim C6 (amended): a failed (or unattempted) remote create falls back to
    the local store: the history gains the session under its locally
    generated identifier exactly once, it becomes current, the only effect is
    the local write — and no notification that the record is only local is
    emitted. -/
theorem c6_local_fallback (cfg : Bool) (uid : Option String) (s : AnalysisSessionV)
    (prev : List AnalysisSessionV) (hfresh : s.id ∉ prev.map (fun p => p.id)) :
    (handleNewSession cfg uid none s prev).sessions = s :: prev
    ∧ (handleNewSession cfg uid none s prev).currentSessionId = some s.id
    ∧ ((handleNewSession cfg uid none s prev).sessions.filter
        (fun p => p.id = s.id)).length = 1
    ∧ (handleNewSession cfg uid none s prev).effects =
        [ClientEffect.storeLocalSessions (s :: prev)] := by
  have hout : handleNewSession cfg uid none s prev =
      ⟨s :: prev, some s.id, [ClientEffect.storeLocalSessions (s :: prev)]⟩ := by
    unfold handleNewSession
    rw [ite_self]
  refine ⟨by rw [hout], by rw [hout], ?_, by rw [hout]⟩
  rw [hout]
  have hnil : prev.filter (fun p => p.id = s.id) = [] := by
    rw [List.filter_eq_nil_iff]
    intro p hp
    simp only [decide_eq_true_eq]
    intro hps
    exact hfresh (hps ▸ List.mem_map_of_mem (fun q => q.id) hp)
  simp [List.filter_cons, hnil]

/-- Think-block removal is the identity when no `<think>` occurs. -/
theorem removeThinkBlocksFuel_id {l : List Char} (h : containsSubCI thinkOpenL l = false) :
    ∀ fuel, removeThinkBlocksFuel fuel l = l := by
  induction l with
  | nil => intro fuel; cases fuel <;> rfl
  | cons c t ih =>
    intro fuel
    simp only [containsSubCI, Bool.or_eq_false_iff] at h
    cases fuel with
    | zero => rfl
    | succ k => simp [removeThinkBlocksFuel, h.1, ih h.2 k]

theorem removeThinkBlocks_id {l : List Char} (h : containsSubCI thinkOpenL l = false) :
    removeThinkBlocks l = l :=
  removeThinkBlocksFuel_id h l.length

theorem firstSpan_eq_none (openT closeT l : List Char) (hne : openT ≠ [])
    (h : containsSub openT l = false) : firstSpan openT closeT l = none := by
  unfold firstSpan
  rw [firstIndexOf?_eq_none hne h]

theorem braceFallback_err {raw : List Char} (h : hasBracePair raw = false) :
    braceFallback raw = Except.error parseFailMsg := by
  unfold braceFallback
  unfold hasBracePair at h
  cases h1 : firstIndexOf? ['\x7b'] raw with
  | none => cases h2 : lastIndexOf? ['\x7d'] raw <;> rfl
  | some i =>
    cases h2 : lastIndexOf? ['\x7d'] raw with
    | none => rfl
    | some j =>
      rw [h1, h2] at h
      simp only [decide_eq_false_iff_not] at h
      simp [h]

/-- Claim C1 (amended): with no delimiter tags and no brace-delimited span,
    the edge-function normalizer `parseResponse` fails with the parse error
    and so never yields any success record; the client-side per-field-tag
    normalizer `parseGeminiResponse`, however, answers text containing none
    of its tag patterns with a *successful* fully-defaulted record. -/
theorem c1_no_empty_success :
    (∀ raw : String, containsSub finalOpenL raw.toList = false →
      hasBracePair raw.toList = false →
      parseResponse raw = Except.error parseFailMsg)
    ∧ (∀ raw : String, gemTagFree raw.toList = true →
      parseGeminiResponse raw =
        Except.ok ⟨"Could not extract summary.", "Could not extract reasoning.", [],
          "# Could not generate code.", Json.jarr [], 75, "Unknown"⟩) := by
  constructor
  · intro raw h1 h2
    have hopen : lastIndexOf? finalOpenL raw.toList = none :=
      lastIndexOf?_eq_none (by decide) h1
    unfold parseResponse
    simp only [hopen]
    exact braceFallback_err h2
  · intro raw h
    simp only [gemTagFree, Bool.and_eq_true, Bool.not_eq_true'] at h
    obtain ⟨⟨⟨⟨⟨⟨⟨hthink, hsum⟩, hreas⟩, hass⟩, hcode⟩, hrepro⟩, hint⟩, hsim⟩ := h
    have et : removeThinkBlocks raw.toList = raw.toList := removeThinkBlocks_id hthink
    have e1 := firstSpan_eq_none "<summary>".toList "</summary>".toList
      raw.toList (by decide) hsum
    have e2 := firstSpan_eq_none "<reasoning>".toList "</reasoning>".toList
      raw.toList (by decide) hreas
    have e3 := firstSpan_eq_none "<assumptions>".toList "</assumptions>".toList
      raw.toList (by decide) hass
    have e4 := firstSpan_eq_none "<code>".toList "</code>".toList
      raw.toList (by decide) hcode
    have e5 := firstSpan_eq_none "<reproducibility>".toList "</reproducibility>".toList
      raw.toList (by decide) hrepro
    have e6 := firstSpan_eq_none "<integrity>".toList "</integrity>".toList
      raw.toList (by decide) hint
    have e7 := firstSpan_eq_none "<simulation_data>".toList "</simulation_data>".toList
      raw.toList (by decide) hsim
    unfold parseGeminiResponse
    simp only [et, e1, e2, e3, e4, e5, e6, e7]
    rfl

/-- Claim C1 counterexample: `parseGeminiResponse` — one of the two
    normalizers the claim covers — answers completely unstructured text with
    a *success* whose every field is the default, exactly the "defaulted
    empty success" the claim rules out. -/
theorem c1_counterexample :
    parseGeminiResponse "The paper looks fine to me, thanks!" =
      Except.ok ⟨"Could not extract summary.", "Could not extract reasoning.", [],
        "# Could not generate code.", Json.jarr [], 75, "Unknown"⟩ := rfl

/-- Claim C1 witness: concrete unstructured inputs for both conjuncts. -/
theorem c1_witness :
    parseResponse "nothing structured in sight" = Except.error parseFailMsg
    ∧ parseGeminiResponse "still nothing structured" =
        Except.ok ⟨"Could not extract summary.", "Could not extract reasoning.", [],
          "# Could not generate code.", Json.jarr [], 75, "Unknown"⟩ :=
  ⟨c1_no_empty_success.1 "nothing structured in sight" (by decide) (by decide),
    c1_no_empty_success.2 "still nothing structured" (by decide)⟩

/-- Claim C5: for any payload span consisting of an array body `A` followed
    by a trailing `, ...` before the closing bracket — with `A` arbitrary
    (floats, negatives, nested values) as long as it contains no further
    literal `...` — the edge-function Normalizer's sanitization stages
    (`replace(/,\s*\.\.\./g, '')` then `replace(/\.\.\./g, '')`) remove
    exactly the trailing `, ...`, leaving every character of `A` untouched,
    and the sanitized span `JSON.parse`s to whatever the span with the
    ellipsis dropped parses to. -/
theorem c5_ellipsis_sanitization (A : List Char) (v : Json)
    (hdots : containsSub dotsL A = false)
    (hparse : parseJsonText (A ++ [']']) = some v) :
    edgeSanitize (A ++ (',' :: ' ' :: (dotsL ++ [']']))) = A ++ [']'] ∧
    parseJsonText (edgeSanitize (A ++ (',' :: ' ' :: (dotsL ++ [']'])))) = some v := by
  have h := not_occurs_of_containsSub_false (by decide) hdots
  have h1 := edgeSanitize_nodots_span A h
  exact ⟨h1, by rw [h1]; exact hparse⟩

/-- Claim C5 counterexample: the claim also covers bare `...` tokens and the
    custom-AI normalizer, and fails on both counts. A bare `...` that is not
    preceded by a comma is deleted without its surrounding comma, leaving an
    unparsable span, so `parseResponse` errors instead of repairing it; and
    the custom-AI client parser performs no ellipsis sanitization at all,
    failing even on the trailing `, ...` shape the edge function handles. -/
theorem c5_counterexample :
    edgeSanitize "[..., 1]".toList = "[, 1]".toList ∧
    parseJsonText "[, 1]".toList = none ∧
    parseResponse "<FINAL_JSON>\x7b\"simulation_data\":[..., 1]\x7d</FINAL_JSON>" =
      Except.error parseFailMsg ∧
    customAiParseResponse
        "<FINAL_JSON>\x7b\"reproducibility_score\":5,\"simulation_data\":[1, 2, ...]\x7d</FINAL_JSON>" =
      Except.error customAiFailMsg :=
  ⟨rfl, rfl, rfl, rfl⟩

/-- Claim C5 witness: an array body with a float and a nested array holding a
    negative number, followed by a trailing `, ...`. -/
theorem c5_witness :
    (containsSub dotsL "[1.5, [-2, 3]".toList = false ∧
      parseJsonText ("[1.5, [-2, 3]".toList ++ [']']) =
        some (Json.jarr [Json.jnum 15 (-1), Json.jarr [Json.jnum (-2) 0, Json.jnum 3 0]])) ∧
    (edgeSanitize ("[1.5, [-2, 3]".toList ++ (',' :: ' ' :: (dotsL ++ [']']))) =
        "[1.5, [-2, 3]".toList ++ [']'] ∧
      parseJsonText (edgeSanitize ("[1.5, [-2, 3]".toList ++
          (',' :: ' ' :: (dotsL ++ [']'])))) =
        some (Json.jarr [Json.jnum 15 (-1), Json.jarr [Json.jnum (-2) 0, Json.jnum 3 0]])) :=
  ⟨⟨by decide, rfl⟩,
    c5_ellipsis_sanitization "[1.5, [-2, 3]".toList
      (Json.jarr [Json.jnum 15 (-1), Json.jarr [Json.jnum (-2) 0, Json.jnum 3 0]])
      (by decide) rfl⟩

/-- Claim C6 witness. -/
theorem c6_witness :
    (handleNewSession false none none c6demo []).sessions = [c6demo]
    ∧ (handleNewSession false none none c6demo []).currentSessionId = some c6demo.id
    ∧ ((handleNewSession false none none c6demo []).sessions.filter
        (fun p => p.id = c6demo.id)).length = 1
    ∧ (handleNewSession false none none c6demo []).effects =
        [ClientEffect.storeLocalSessions [c6demo]] :=
  c6_local_fallback false none c6demo [] (by simp)

end Logos
